import Mathlib

/-!
# scopehal `Unit`: pretty-printing and parsing of measurement values

A shallow embedding of `Unit::PrettyPrint` and `Unit::ParseString`
(`scopehal/Unit.cpp`) and theorems about them.

Conventions of the embedding:

* a C `double` that holds a finite value is a rational number (`ℚ`).  The definitions named
  after the source compute with the exact values; `PrettyPrint64` and `ParseString64` round
  every operation to the nearest binary64 value (`round64`), and the statements that depend
  on that rounding (C10, C11, C19) are about them.  The float literal `1e9f` of the first
  comparison is exactly `10^9`;
* a `std::string` / C string is the list of its bytes (`CString`), each byte a natural number
  below 256.  The string literals of the source are UTF-8 encoded (`cstr`), so `"μ"` and `"Ω"`
  are two bytes each;
* the C library calls (`fabs`, `isspace`, `isdigit`, `snprintf`, `sscanf`) are modelled after
  ISO C in the "C" locale.
-/

namespace ScopeHal

set_option maxHeartbeats 1000000

/-! ## Byte strings -/

/-- The bytes of a `std::string` or of a C string without its terminating NUL. -/
abbrev CString := List Nat

/-- UTF-8 encoding of one Unicode scalar value. -/
def utf8EncodeChar (c : Char) : List Nat :=
  let n := c.toNat
  if n < 128 then [n]
  else if n < 2048 then [192 + n / 64, 128 + n % 64]
  else if n < 65536 then [224 + n / 4096, 128 + n / 64 % 64, 128 + n % 64]
  else [240 + n / 262144, 128 + n / 4096 % 64, 128 + n / 64 % 64, 128 + n % 64]

/-- The bytes of a string literal of the (UTF-8) source file. -/
def cstr (s : String) : CString := s.data.flatMap utf8EncodeChar

/-! ## The unit kinds -/

/-- Modelled from the spec: the enumeration `Unit::UnitType` is declared in a header that is not
among the sources.  Its thirteen members are the `case` labels of `PrettyPrint` (the catalogue of
the spec); `UNIT_OTHER tag` stands for any other value the field `m_type` may hold, which is what
the `default:` labels receive. -/
inductive UnitType
  | UNIT_PS
  | UNIT_HZ
  | UNIT_SAMPLERATE
  | UNIT_SAMPLEDEPTH
  | UNIT_VOLTS
  | UNIT_MILLIVOLTS
  | UNIT_AMPS
  | UNIT_OHMS
  | UNIT_BITRATE
  | UNIT_PERCENT
  | UNIT_DB
  | UNIT_COUNTS
  | UNIT_LOG_BER
  | UNIT_OTHER (tag : Nat)
  deriving DecidableEq

open UnitType

/-- The thirteen catalogued kinds. -/
def catalogue : List UnitType :=
  [UNIT_PS, UNIT_HZ, UNIT_SAMPLERATE, UNIT_SAMPLEDEPTH, UNIT_VOLTS, UNIT_MILLIVOLTS, UNIT_AMPS,
   UNIT_OHMS, UNIT_BITRATE, UNIT_PERCENT, UNIT_DB, UNIT_COUNTS, UNIT_LOG_BER]

/-! ## C library: `fabs`, `printf`-style `%.Nf`, `snprintf` -/

/-- C `fabs` on a finite value. -/
def fabs (x : ℚ) : ℚ := if x < 0 then -x else x

/-- Decimal digits of `n` as ASCII bytes, most significant first, no leading zero (`0` is
`"0"`).  `fuel` bounds the number of digits; `n + 1` is always enough. -/
def decDigits : Nat → Nat → List Nat
  | 0, _ => []
  | fuel + 1, n => if n < 10 then [48 + n] else decDigits fuel (n / 10) ++ [48 + n % 10]

/-- The last `d` decimal digits of `n` as ASCII bytes, zero padded. -/
def fracDigits : Nat → Nat → List Nat
  | 0, _ => []
  | d + 1, n => fracDigits d (n / 10) ++ [48 + n % 10]

/-- The integer nearest to `a / b`, ties going to the even one (the rounding `printf` applies
in the default rounding mode). -/
def roundDiv (a b : Nat) : Nat :=
  if 2 * (a % b) < b then a / b
  else if b < 2 * (a % b) then a / b + 1
  else if a / b % 2 = 0 then a / b else a / b + 1

/-- `|x| * 10 ^ prec` rounded to an integer: the digits `%.<prec>f` prints for `x`. -/
def scaledRound (prec : Nat) (x : ℚ) : Nat := roundDiv (x.num.natAbs * 10 ^ prec) x.den

/-- The conversion `%.<prec>f` of `printf`: sign, integer part, and for `prec > 0` a point and
exactly `prec` decimals. -/
def fmtFixed (prec : Nat) (x : ℚ) : CString :=
  (if x < 0 then [45] else [])
    ++ decDigits (scaledRound prec x / 10 ^ prec + 1) (scaledRound prec x / 10 ^ prec)
    ++ (if prec = 0 then [] else 46 :: fracDigits prec (scaledRound prec x % 10 ^ prec))

/-- What `snprintf(buf, size, ...)` leaves in `buf` when the formatted text is `text`: at most
`size - 1` bytes of it. -/
def snprintf (size : Nat) (text : CString) : CString := text.take (size - 1)

/-! ## `Unit::PrettyPrint` -/

/-- The locals `value_rescaled`, `scale` and `unit` of `PrettyPrint`. -/
structure Scaled where
  value_rescaled : ℚ
  scale : CString
  unit : CString
  deriving DecidableEq

/-- Unit.cpp lines 39-71: the default scaling and prefixes for SI base units, giving
`(value_rescaled, scale)`.  The branches are kept in the order of the source. -/
def defaultScale (value : ℚ) : ℚ × CString :=
  if fabs value ≥ 1e9 then (value / 1e9, cstr "G")
  else if fabs value ≥ 1e6 then (value / 1e6, cstr "M")
  else if fabs value ≥ 1e3 then (value / 1e3, cstr "k")
  else if fabs value < 1 then (value * 1e3, cstr "m")
  else if fabs value < 1e-6 then (value * 1e6, cstr "μ")
  else if fabs value < 1e-9 then (value * 1e9, cstr "p")
  else (value, cstr "")

/-- Unit.cpp lines 76-104: the scaling of `UNIT_PS`, computed from the raw value. -/
def psScale (value : ℚ) : ℚ × CString :=
  if fabs value ≥ 1e12 then (value / 1e12, cstr "")
  else if fabs value ≥ 1e9 then (value / 1e9, cstr "m")
  else if fabs value ≥ 1e6 then (value / 1e6, cstr "μ")
  else if fabs value ≥ 1e3 then (value / 1e3, cstr "n")
  else (value, cstr "p")

/-- Unit.cpp lines 73-165: the first `switch` on `m_type`.  It receives the `value_rescaled`
and `scale` the default scaling has left and gives the three locals as they are after the
`switch`; `none` is the `default:` label, where the function returns `"Invalid unit"`. -/
def unitSwitch (m_type : UnitType) (value value_rescaled : ℚ) (scale : CString) :
    Option Scaled :=
  match m_type with
  | UNIT_PS => some ⟨(psScale value).1, (psScale value).2, cstr "s"⟩
  | UNIT_HZ => some ⟨value_rescaled, scale, cstr "Hz"⟩
  | UNIT_SAMPLERATE => some ⟨value_rescaled, scale, cstr "S/s"⟩
  | UNIT_SAMPLEDEPTH => some ⟨value_rescaled, scale, cstr "S"⟩
  | UNIT_VOLTS => some ⟨value_rescaled, scale, cstr "V"⟩
  | UNIT_MILLIVOLTS => some ⟨value, cstr "", cstr "mV"⟩
  | UNIT_AMPS => some ⟨value_rescaled, scale, cstr "A"⟩
  | UNIT_OHMS => some ⟨value_rescaled, scale, cstr "Ω"⟩
  | UNIT_BITRATE => some ⟨value_rescaled, scale, cstr "bps"⟩
  | UNIT_PERCENT => some ⟨value, cstr "", cstr "%"⟩
  | UNIT_DB => some ⟨value, cstr "", cstr "dB"⟩
  | UNIT_COUNTS => some ⟨value, cstr "", cstr ""⟩
  | UNIT_LOG_BER => some ⟨value, cstr "", cstr ""⟩
  | UNIT_OTHER _ => none

/-- Unit.cpp lines 36-165: the default scaling followed by the first `switch`. -/
def unitScale (m_type : UnitType) (value : ℚ) : Option Scaled :=
  unitSwitch m_type value (defaultScale value).1 (defaultScale value).2

/-- Unit.cpp lines 169-186: the text the second `switch` asks `snprintf` to format. -/
def formatText (m_type : UnitType) (value : ℚ) (s : Scaled) : CString :=
  match m_type with
  | UNIT_LOG_BER => cstr "1e" ++ fmtFixed 0 value
  | UNIT_SAMPLERATE => fmtFixed 0 s.value_rescaled ++ cstr " " ++ s.scale ++ s.unit
  | UNIT_SAMPLEDEPTH => fmtFixed 0 s.value_rescaled ++ cstr " " ++ s.scale ++ s.unit
  | _ => fmtFixed 3 s.value_rescaled ++ cstr " " ++ s.scale ++ s.unit

/-- `Unit::PrettyPrint` (Unit.cpp lines 34-188).  The text is written with `snprintf` into
`char tmp[128]`, so the result has at most 127 bytes. -/
def PrettyPrint (m_type : UnitType) (value : ℚ) : CString :=
  match unitScale m_type value with
  | none => cstr "Invalid unit"
  | some s => snprintf 128 (formatText m_type value s)

/-! ## C library: `isspace`, `isdigit`, `sscanf("%20lf")` -/

/-- C `isspace` in the "C" locale: space, `\t`, `\n`, `\v`, `\f`, `\r`. -/
def isspace (c : Nat) : Bool := c == 32 || (9 ≤ c && c ≤ 13)

/-- C `isdigit`. -/
def isdigit (c : Nat) : Bool := 48 ≤ c && c ≤ 57

/-- C `isxdigit`. -/
def isxdigit (c : Nat) : Bool := isdigit c || (65 ≤ c && c ≤ 70) || (97 ≤ c && c ≤ 102)

/-- C `isalnum` in the "C" locale. -/
def isalnum (c : Nat) : Bool := isdigit c || (65 ≤ c && c ≤ 90) || (97 ≤ c && c ≤ 122)

/-- C `tolower` in the "C" locale. -/
def tolower (c : Nat) : Nat := if 65 ≤ c ∧ c ≤ 90 then c + 32 else c

/-- The number written by a run of decimal digits. -/
def digitsVal (ds : List Nat) : Nat := ds.foldl (fun acc c => acc * 10 + (c - 48)) 0

/-- The value of one hexadecimal digit. -/
def hexDigitVal (c : Nat) : Nat :=
  if isdigit c then c - 48 else if 97 ≤ c then c - 87 else c - 55

/-- The number written by a run of hexadecimal digits. -/
def hexVal (ds : List Nat) : Nat := ds.foldl (fun acc c => acc * 16 + hexDigitVal c) 0

/-- The outcome of one `%lf` conversion. -/
inductive ScanResult
  /-- Matching failure: nothing is stored through the argument. -/
  | failure
  /-- A finite number was read and stored. -/
  | number (q : ℚ)
  /-- An `INF` or `NAN` form was read: what is stored is not a finite number. -/
  | nonFinite
  deriving DecidableEq

/-- An optional sign: whether it is `-`, and what follows it. -/
def scanSign : CString → Bool × CString
  | 45 :: rest => (true, rest)
  | 43 :: rest => (false, rest)
  | s => (false, s)

/-- The optional exponent part after a mantissa of value `m`: the letter `mark` (given in
lower case), an optional sign and decimal digits, scaling by powers of `base`.  A letter that
is not followed by digits makes the input item a proper prefix of a number only, which is a
matching failure. -/
def scanExponent (mark : Nat) (base : ℚ) (m : ℚ) : CString → ScanResult
  | [] => .number m
  | c :: rest =>
    if tolower c = mark then
      if ((scanSign rest).2.takeWhile isdigit) = [] then .failure
      else if (scanSign rest).1 then
        .number (m / base ^ digitsVal ((scanSign rest).2.takeWhile isdigit))
      else .number (m * base ^ digitsVal ((scanSign rest).2.takeWhile isdigit))
    else .number m

/-- A decimal floating constant without sign: digits, optionally a point and digits, at least
one digit in all, optionally an exponent. -/
def scanDecimal (s : CString) : ScanResult :=
  match s.dropWhile isdigit with
  | 46 :: t =>
    if s.takeWhile isdigit = [] ∧ t.takeWhile isdigit = [] then .failure
    else scanExponent 101 10
      ((digitsVal (s.takeWhile isdigit ++ t.takeWhile isdigit) : ℚ)
        / 10 ^ (t.takeWhile isdigit).length) (t.dropWhile isdigit)
  | r =>
    if s.takeWhile isdigit = [] then .failure
    else scanExponent 101 10 (digitsVal (s.takeWhile isdigit) : ℚ) r

/-- A hexadecimal floating constant without sign, after its `0x`. -/
def scanHex (s : CString) : ScanResult :=
  match s.dropWhile isxdigit with
  | 46 :: t =>
    if s.takeWhile isxdigit = [] ∧ t.takeWhile isxdigit = [] then .failure
    else scanExponent 112 2
      ((hexVal (s.takeWhile isxdigit ++ t.takeWhile isxdigit) : ℚ)
        / 16 ^ (t.takeWhile isxdigit).length) (t.dropWhile isxdigit)
  | r =>
    if s.takeWhile isxdigit = [] then .failure
    else scanExponent 112 2 (hexVal (s.takeWhile isxdigit) : ℚ) r

/-- How many leading bytes of `s` agree, ignoring case, with the lower-case word `w`. -/
def matchLen : CString → CString → Nat
  | c :: s, d :: w => if tolower c = d then matchLen s w + 1 else 0
  | _, _ => 0

/-- The forms `INF`, `INFINITY`, `NAN` and `NAN(n-char-sequence)`, for an item whose first
letter is `i` or `n`.  The input item is the longest prefix of a form, and the conversion
succeeds only when that prefix is a whole form. -/
def scanWord (s : CString) : ScanResult :=
  if matchLen s (cstr "infinity") = 3 ∨ matchLen s (cstr "infinity") = 8 then .nonFinite
  else if matchLen s (cstr "nan") = 3 then
    match s.drop 3 with
    | 40 :: t =>
      match t.dropWhile (fun c => isalnum c || c == 95) with
      | 41 :: _ => .nonFinite
      | _ => .failure
    | _ => .nonFinite
  else .failure

/-- The subject sequence of `strtod` without its sign. -/
def scanUnsigned (s : CString) : ScanResult :=
  match s with
  | 48 :: x :: t => if tolower x = 120 then scanHex t else scanDecimal s
  | c :: _ => if tolower c = 105 ∨ tolower c = 110 then scanWord s else scanDecimal s
  | [] => .failure

/-- The conversion `%<width>lf` of `sscanf` (ISO C, 7.21.6.2): white space is skipped, the
input item is the longest run of at most `width` bytes that is a floating constant or a prefix
of one, and the conversion fails unless the item is a whole constant. -/
def sscanf_lf (width : Nat) (str : CString) : ScanResult :=
  match scanUnsigned (scanSign ((str.dropWhile isspace).take width)).2 with
  | .number q => .number (if (scanSign ((str.dropWhile isspace).take width)).1 then -q else q)
  | r => r

/-! ## `Unit::ParseString` -/

/-- Unit.cpp lines 203-216: the scale of the first non-numeric character. -/
def prefixScale (c : Nat) : ℚ :=
  if c = 'G'.toNat then 1000000000.0
  else if c = 'M'.toNat then 1000000.0
  else if c = 'K'.toNat then 1000.0
  else if c = 'm'.toNat then 0.001
  else if c = 'u'.toNat then 1e-6
  else if c = 'n'.toNat then 1e-9
  else if c = 'p'.toNat then 1e-12
  else 1

/-- Unit.cpp lines 196-219: the loop that finds the first non-numeric character of the
string; the value of `scale` when the loop is left. -/
def scanScale : CString → ℚ
  | [] => 1
  | c :: rest =>
    if isspace c || isdigit c || c == '.'.toNat || c == '-'.toNat then scanScale rest
    else prefixScale c

/-- Unit.cpp lines 227-235: the unit-specific scaling factor. -/
def unitFactor (m_type : UnitType) (ret : ℚ) : ℚ :=
  match m_type with
  | UNIT_PS => ret * 1e12
  | _ => ret

/-- `Unit::ParseString` (Unit.cpp lines 193-238).  `ret0` is the indeterminate value the
uninitialised local `double ret` holds before `sscanf`; it is what `ret` still holds when the
conversion fails.  The result is `none` when `sscanf` stored an infinity or a NaN, so that the
function does not return a finite number. -/
def ParseString (ret0 : ℚ) (m_type : UnitType) (str : CString) : Option ℚ :=
  match sscanf_lf 20 str with
  | .nonFinite => none
  | .number q => some (unitFactor m_type (q * scanScale str))
  | .failure => some (unitFactor m_type (ret0 * scanScale str))

/-! ## Binary64 arithmetic

The definitions above compute with the exact values.  The ones below round every result to
the nearest binary64 value (ties to even, the default mode), as the `double` operations of
the source do; they are used where a statement depends on that rounding. -/

/-- The binary logarithm of `n`, rounded down (0 for `n < 2`); `fuel` bounds the number of
halvings, and `n` is always enough. -/
def log2Fuel : Nat → Nat → Nat
  | 0, _ => 0
  | fuel + 1, n => if n < 2 then 0 else log2Fuel fuel (n / 2) + 1

/-- The exponent `e` with `2^e ≤ a/b < 2^(e+1)`, for positive `a` and `b`. -/
def floorLog2 (a b : Nat) : Int :=
  if (if log2Fuel a a ≥ log2Fuel b b then b * 2 ^ (log2Fuel a a - log2Fuel b b) ≤ a
      else b ≤ a * 2 ^ (log2Fuel b b - log2Fuel a a))
  then (log2Fuel a a : Int) - log2Fuel b b else (log2Fuel a a : Int) - log2Fuel b b - 1

/-- The exponent of the spacing of the binary64 values around `a/b`: 52 below its binary
exponent (53 significant bits), and never below -1074 (the subnormal numbers). -/
def quantumExp (a b : Nat) : Int := max (floorLog2 a b - 52) (-1074)

/-- `|x|` rounded to the nearest multiple of the binary64 spacing around it, ties to even. -/
def roundAbs64 (x : ℚ) : ℚ :=
  if 0 ≤ quantumExp x.num.natAbs x.den then
    (roundDiv x.num.natAbs (x.den * 2 ^ (quantumExp x.num.natAbs x.den).toNat) : ℚ)
      * 2 ^ (quantumExp x.num.natAbs x.den).toNat
  else
    (roundDiv (x.num.natAbs * 2 ^ (-quantumExp x.num.natAbs x.den).toNat) x.den : ℚ)
      / 2 ^ (-quantumExp x.num.natAbs x.den).toNat

/-- The value `x` rounded to binary64 as if the exponent range had no upper end. -/
def round64Fin (x : ℚ) : ℚ := if x < 0 then -roundAbs64 x else roundAbs64 x

/-- The value `x` rounded to binary64 (to nearest, ties to even); `none` when the result
overflows to an infinity.  In the results of the binary64 operations below `none` stands for
an infinity or a NaN. -/
def round64 (x : ℚ) : Option ℚ :=
  if roundAbs64 x ≥ 2 ^ 1024 then none else some (round64Fin x)

/-- Binary64 multiplication `a * b`. -/
def dmul (a b : Option ℚ) : Option ℚ :=
  match a, b with
  | some x, some y => round64 (x * y)
  | _, _ => none

/-- `Unit::PrettyPrint` with binary64 arithmetic.  Each branch of the two ladders performs one
operation on `value` and a constant that binary64 holds exactly (1e3, 1e6, 1e9, 1e12), so the
`value_rescaled` it leaves is the rounding of the exact result, which cannot overflow; a
`value` that is itself a binary64 number is left unchanged by the rounding. -/
def PrettyPrint64 (m_type : UnitType) (value : ℚ) : CString :=
  match unitScale m_type value with
  | none => cstr "Invalid unit"
  | some s => snprintf 128 (formatText m_type value ⟨round64Fin s.value_rescaled, s.scale, s.unit⟩)

/-- Unit.cpp lines 227-235 with binary64 arithmetic. -/
def unitFactor64 (m_type : UnitType) (ret : Option ℚ) : Option ℚ :=
  match m_type with
  | UNIT_PS => dmul ret (some 1e12)
  | _ => ret

/-- `Unit::ParseString` with binary64 arithmetic: `sscanf` stores the binary64 value nearest
to the number it reads, `scale` holds the binary64 value nearest to the literal of the
source, and both products are rounded.  `ret0` is the content of the uninitialised `ret`. -/
def ParseString64 (ret0 : Option ℚ) (m_type : UnitType) (str : CString) : Option ℚ :=
  unitFactor64 m_type
    (dmul
      (match sscanf_lf 20 str with
        | .nonFinite => none
        | .number q => round64 q
        | .failure => ret0)
      (round64 (scanScale str)))

/-! ## Vocabulary of the statements -/

/-- The kinds that keep the default SI scaling of Unit.cpp lines 39-71. -/
def siKinds : List UnitType :=
  [UNIT_HZ, UNIT_SAMPLERATE, UNIT_SAMPLEDEPTH, UNIT_VOLTS, UNIT_AMPS, UNIT_OHMS, UNIT_BITRATE]

/-- The pair (magnitude, prefix) `PrettyPrint` has chosen when it reaches the formatting
`switch`; `none` when it has returned before. -/
def chosen (m_type : UnitType) (value : ℚ) : Option (ℚ × CString) :=
  (unitScale m_type value).map fun s => (s.value_rescaled, s.scale)

/-- The kinds whose `case` forces the raw value and the empty prefix, each with the suffix the
claim gives it. -/
def rawKinds : List (UnitType × String) :=
  [(UNIT_MILLIVOLTS, "mV"), (UNIT_PERCENT, "%"), (UNIT_DB, "dB"), (UNIT_COUNTS, "")]

/-- The characters the loop of `ParseString` skips (Unit.cpp line 200): white space, digits,
`.` and `-`. -/
def isNumeric (c : Nat) : Bool := isspace c || isdigit c || c == '.'.toNat || c == '-'.toNat

/-- The seven prefix letters `ParseString` recognises: `G M K m u n p`. -/
def prefixLetters : List Nat :=
  ['G'.toNat, 'M'.toNat, 'K'.toNat, 'm'.toNat, 'u'.toNat, 'n'.toNat, 'p'.toNat]

/-- The number the text `fmtFixed prec x` denotes: the displayed magnitude. -/
def fmtValue (prec : Nat) (x : ℚ) : ℚ :=
  (if x < 0 then -1 else 1) * ((scaledRound prec x : ℚ) / 10 ^ prec)

/-- The kinds of the round-trip claims: voltage, frequency and current. -/
def roundTripKinds : List UnitType := [UNIT_VOLTS, UNIT_HZ, UNIT_AMPS]

/-- The default ladder as the spec collapses it, without the branches for `< 1e-6` and
`< 1e-9` (`G`, `M`, `k`, `m`, none); it follows the words of the spec and is compared with
`defaultScale`, which follows the source. -/
def defaultScaleCollapsed (value : ℚ) : ℚ × CString :=
  if fabs value ≥ 1e9 then (value / 1e9, cstr "G")
  else if fabs value ≥ 1e6 then (value / 1e6, cstr "M")
  else if fabs value ≥ 1e3 then (value / 1e3, cstr "k")
  else if fabs value < 1 then (value * 1e3, cstr "m")
  else (value, cstr "")

/-- The pair (magnitude, prefix) `PrettyPrint64` has chosen when it reaches the formatting
`switch`: the magnitude is the binary64 rounding of the exact one. -/
def chosen64 (m_type : UnitType) (value : ℚ) : Option (ℚ × CString) :=
  (unitScale m_type value).map fun s => (round64Fin s.value_rescaled, s.scale)

/-! # Theorems -/

/-! ## Auxiliary facts -/

theorem fabs_eq_abs (x : ℚ) : fabs x = |x| := by
  unfold fabs
  split_ifs with h
  · exact (abs_of_neg h).symm
  · exact (abs_of_nonneg (not_lt.mp h)).symm

theorem chosen_of_mem_siKinds {k : UnitType} (hk : k ∈ siKinds) (v : ℚ) :
    chosen k v = some (defaultScale v) := by
  simp only [siKinds, List.mem_cons, List.mem_singleton, List.not_mem_nil, or_false] at hk
  rcases hk with rfl | rfl | rfl | rfl | rfl | rfl | rfl <;> rfl

theorem defaultScale_eq (v : ℚ) :
    defaultScale v =
      if 1e9 ≤ |v| then (v / 1e9, cstr "G")
      else if 1e6 ≤ |v| then (v / 1e6, cstr "M")
      else if 1e3 ≤ |v| then (v / 1e3, cstr "k")
      else if |v| < 1 then (v * 1e3, cstr "m")
      else (v, cstr "") := by
  unfold defaultScale
  simp only [fabs_eq_abs, ge_iff_le]
  split_ifs <;> first | rfl | (exfalso; norm_num at *; linarith)

theorem decDigits_length_le : ∀ (fuel n k : Nat), 1 ≤ k → n < 10 ^ k →
    (decDigits fuel n).length ≤ k := by
  intro fuel
  induction fuel with
  | zero => intro n k _ _; simp [decDigits]
  | succ fuel ih =>
    intro n k hk hn
    unfold decDigits
    split_ifs with h10
    · simpa using hk
    · have hk2 : 2 ≤ k := by
        by_contra hlt
        have : k = 1 := by omega
        subst this
        omega
      have hdiv : n / 10 < 10 ^ (k - 1) := by
        rw [Nat.div_lt_iff_lt_mul (by norm_num)]
        calc n < 10 ^ k := hn
          _ = 10 ^ (k - 1 + 1) := by congr 1; omega
          _ = 10 ^ (k - 1) * 10 := by rw [pow_succ]
      have := ih (n / 10) (k - 1) (by omega) hdiv
      simp only [List.length_append, List.length_singleton]
      omega

theorem decDigits_ne_nil (fuel n : Nat) : decDigits (fuel + 1) n ≠ [] := by
  unfold decDigits
  split_ifs <;> simp

theorem decDigits_bytes : ∀ (fuel n : Nat), ∀ c ∈ decDigits fuel n, 48 ≤ c ∧ c ≤ 57 := by
  intro fuel
  induction fuel with
  | zero => intro n c hc; simp [decDigits] at hc
  | succ fuel ih =>
    intro n c hc
    unfold decDigits at hc
    split_ifs at hc with h10
    · simp only [List.mem_singleton] at hc; omega
    · rw [List.mem_append, List.mem_singleton] at hc
      rcases hc with hc | rfl
      · exact ih _ c hc
      · omega

theorem fracDigits_length : ∀ (d n : Nat), (fracDigits d n).length = d := by
  intro d
  induction d with
  | zero => intro n; rfl
  | succ d ih => intro n; simp [fracDigits, ih]

theorem fracDigits_bytes : ∀ (d n : Nat), ∀ c ∈ fracDigits d n, 48 ≤ c ∧ c ≤ 57 := by
  intro d
  induction d with
  | zero => intro n c hc; simp [fracDigits] at hc
  | succ d ih =>
    intro n c hc
    unfold fracDigits at hc
    rw [List.mem_append, List.mem_singleton] at hc
    rcases hc with hc | rfl
    · exact ih _ c hc
    · omega

theorem roundDiv_le (a b : Nat) : roundDiv a b ≤ a / b + 1 := by
  unfold roundDiv
  split_ifs <;> omega

theorem rat_natAbs_lt {x : ℚ} {M : Nat} (hx : |x| < (M : ℚ)) : x.num.natAbs < M * x.den := by
  have hden : (0 : ℚ) < x.den := by exact_mod_cast x.den_pos
  have habs : |x| = (x.num.natAbs : ℚ) / x.den := by
    conv_lhs => rw [← Rat.num_div_den x]
    rw [abs_div, Nat.abs_cast, Nat.cast_natAbs, Int.cast_abs]
  rw [habs, div_lt_iff₀ hden] at hx
  exact_mod_cast hx

theorem scaledRound_div_lt {x : ℚ} {k : Nat} (prec : Nat) (hx : |x| < (10 : ℚ) ^ k) :
    scaledRound prec x / 10 ^ prec < 10 ^ (k + 1) := by
  have h1 : x.num.natAbs < 10 ^ k * x.den := rat_natAbs_lt (by exact_mod_cast hx)
  have hden := x.den_pos
  have h2 : x.num.natAbs * 10 ^ prec / x.den < 10 ^ k * 10 ^ prec := by
    rw [Nat.div_lt_iff_lt_mul hden]
    have hp : 0 < 10 ^ prec := by positivity
    calc x.num.natAbs * 10 ^ prec < 10 ^ k * x.den * 10 ^ prec :=
          Nat.mul_lt_mul_of_pos_right h1 hp
      _ = 10 ^ k * 10 ^ prec * x.den := by ring
  have h3 : scaledRound prec x ≤ 10 ^ k * 10 ^ prec := by
    have := roundDiv_le (x.num.natAbs * 10 ^ prec) x.den
    unfold scaledRound
    omega
  have h4 : scaledRound prec x / 10 ^ prec ≤ 10 ^ k :=
    Nat.div_le_of_le_mul (by rw [Nat.mul_comm]; exact h3)
  calc scaledRound prec x / 10 ^ prec ≤ 10 ^ k := h4
    _ < 10 ^ (k + 1) := Nat.pow_lt_pow_right (by norm_num) (by omega)

theorem fmtFixed_length_le {x : ℚ} {k : Nat} (prec : Nat) (hx : |x| < (10 : ℚ) ^ k) :
    (fmtFixed prec x).length ≤ k + prec + 3 := by
  have hd := decDigits_length_le (scaledRound prec x / 10 ^ prec + 1)
    (scaledRound prec x / 10 ^ prec) (k + 1) (by omega) (scaledRound_div_lt prec hx)
  unfold fmtFixed
  simp only [List.length_append]
  have hs : (if x < 0 then [45] else ([] : List Nat)).length ≤ 1 := by split_ifs <;> simp
  have hf : (if prec = 0 then [] else 46 :: fracDigits prec (scaledRound prec x % 10 ^ prec)).length
      ≤ prec + 1 := by
    split_ifs <;> simp [fracDigits_length]
  omega

theorem fmtFixed_bytes (prec : Nat) (x : ℚ) :
    ∀ c ∈ fmtFixed prec x, c = 45 ∨ c = 46 ∨ (48 ≤ c ∧ c ≤ 57) := by
  intro c hc
  unfold fmtFixed at hc
  rw [List.mem_append, List.mem_append] at hc
  rcases hc with (hc | hc) | hc
  · split_ifs at hc <;> simp_all
  · exact Or.inr (Or.inr (decDigits_bytes _ _ c hc))
  · split_ifs at hc
    · simp at hc
    · rw [List.mem_cons] at hc
      rcases hc with rfl | hc
      · exact Or.inr (Or.inl rfl)
      · exact Or.inr (Or.inr (fracDigits_bytes _ _ c hc))

theorem fmtFixed_ne_nil (prec : Nat) (x : ℚ) : fmtFixed prec x ≠ [] := by
  unfold fmtFixed
  intro h
  rw [List.append_eq_nil, List.append_eq_nil] at h
  exact decDigits_ne_nil _ _ h.1.2

theorem snprintf_of_length_le {size : Nat} {text : CString} (h : text.length ≤ size - 1) :
    snprintf size text = text := List.take_of_length_le h
theorem psScale_eq (v : ℚ) :
    psScale v =
      if 1e12 ≤ |v| then (v / 1e12, cstr "")
      else if 1e9 ≤ |v| then (v / 1e9, cstr "m")
      else if 1e6 ≤ |v| then (v / 1e6, cstr "μ")
      else if 1e3 ≤ |v| then (v / 1e3, cstr "n")
      else (v, cstr "p") := by
  unfold psScale
  simp only [fabs_eq_abs, ge_iff_le]

theorem abs_div_le_self {v c : ℚ} (hc : 1 ≤ c) : |v / c| ≤ |v| := by
  rw [abs_div, abs_of_pos (lt_of_lt_of_le one_pos hc)]
  exact div_le_self (abs_nonneg v) hc

theorem defaultScale_bounds {v : ℚ} {B : ℚ} (hB : 1000 ≤ B) (hv : |v| < B) :
    |(defaultScale v).1| < B ∧ (defaultScale v).2.length ≤ 2 := by
  rw [defaultScale_eq]
  split_ifs with h1 h2 h3 h4 <;> dsimp only <;> refine ⟨?_, by decide⟩
  · exact lt_of_le_of_lt (abs_div_le_self (by norm_num)) hv
  · exact lt_of_le_of_lt (abs_div_le_self (by norm_num)) hv
  · exact lt_of_le_of_lt (abs_div_le_self (by norm_num)) hv
  · rw [abs_mul]
    norm_num
    linarith
  · exact hv

theorem psScale_bounds {v : ℚ} {B : ℚ} (hv : |v| < B) :
    |(psScale v).1| < B ∧ (psScale v).2.length ≤ 2 := by
  rw [psScale_eq]
  split_ifs <;> dsimp only <;> refine ⟨?_, by decide⟩
  · exact lt_of_le_of_lt (abs_div_le_self (by norm_num)) hv
  · exact lt_of_le_of_lt (abs_div_le_self (by norm_num)) hv
  · exact lt_of_le_of_lt (abs_div_le_self (by norm_num)) hv
  · exact lt_of_le_of_lt (abs_div_le_self (by norm_num)) hv
  · exact hv

theorem unitScale_bounds {k : UnitType} {v : ℚ} {s : Scaled} {n : Nat} (hn : 3 ≤ n)
    (hs : unitScale k v = some s) (hv : |v| < (10 : ℚ) ^ n) :
    |s.value_rescaled| < (10 : ℚ) ^ n ∧ s.scale.length ≤ 2 ∧ s.unit.length ≤ 3 := by
  have hB : (1000 : ℚ) ≤ 10 ^ n := by
    calc (1000 : ℚ) = 10 ^ 3 := by norm_num
      _ ≤ 10 ^ n := pow_le_pow_right₀ (by norm_num) hn
  have hd := defaultScale_bounds hB hv
  have hp := psScale_bounds hv
  cases k <;> simp only [unitScale, unitSwitch, Option.some.injEq, reduceCtorEq] at hs <;> subst hs <;>
    dsimp only <;>
    first
    | exact ⟨hd.1, hd.2, by decide⟩
    | exact ⟨hp.1, hp.2, by decide⟩
    | exact ⟨hv, by decide, by decide⟩

theorem formatText_length_le {k : UnitType} {v : ℚ} {s : Scaled}
    (hs : unitScale k v = some s) (hv : |v| < (10 : ℚ) ^ 100) :
    (formatText k v s).length ≤ 127 := by
  obtain ⟨h1, h2, h3⟩ := unitScale_bounds (by norm_num) hs hv
  have a0 := fmtFixed_length_le 0 h1
  have a3 := fmtFixed_length_le 3 h1
  have b0 := fmtFixed_length_le 0 hv
  have hsp : (cstr " ").length = 1 := by decide
  have he : (cstr "1e").length = 2 := by decide
  cases k <;> simp only [formatText, List.length_append, hsp, he] <;> omega

theorem PrettyPrint_eq_snprintf {k : UnitType} {v : ℚ} {s : Scaled}
    (hs : unitScale k v = some s) : PrettyPrint k v = snprintf 128 (formatText k v s) := by
  unfold PrettyPrint
  rw [hs]

theorem PrettyPrint_of_lt {k : UnitType} {v : ℚ} {s : Scaled}
    (hs : unitScale k v = some s) (hv : |v| < (10 : ℚ) ^ 100) :
    PrettyPrint k v = formatText k v s := by
  rw [PrettyPrint_eq_snprintf hs]
  exact snprintf_of_length_le (formatText_length_le hs hv)
theorem formatText_three {k : UnitType} (h1 : k ≠ UNIT_LOG_BER) (h2 : k ≠ UNIT_SAMPLERATE)
    (h3 : k ≠ UNIT_SAMPLEDEPTH) (v a : ℚ) (b c : CString) :
    formatText k v ⟨a, b, c⟩ = fmtFixed 3 a ++ cstr " " ++ b ++ c := by
  cases k <;> first | rfl | contradiction

theorem formatText_zero {k : UnitType} (h : k = UNIT_SAMPLERATE ∨ k = UNIT_SAMPLEDEPTH)
    (v a : ℚ) (b c : CString) :
    formatText k v ⟨a, b, c⟩ = fmtFixed 0 a ++ cstr " " ++ b ++ c := by
  rcases h with rfl | rfl <;> rfl

theorem formatText_log_ber (v : ℚ) (s : Scaled) :
    formatText UNIT_LOG_BER v s = cstr "1e" ++ fmtFixed 0 v := rfl

theorem cstr_empty : cstr "" = [] := rfl

/-! ## C1: the default SI ladder -/

/-- C1.  For every kind among frequency, sample-rate, sample-depth, voltage, current,
resistance and bitrate, and every value `v`, the (magnitude, prefix) `PrettyPrint` chooses is
`(v/1e9, "G")` when `|v| ≥ 1e9`, `(v/1e6, "M")` when `1e6 ≤ |v| < 1e9`, `(v/1e3, "k")` when
`1e3 ≤ |v| < 1e6`, `(v, "")` when `1 ≤ |v| < 1e3` and `(v*1e3, "m")` when `|v| < 1`, which
includes `v = 0`.  `PrettyPrint(UNIT_VOLTS, 1500.0)` is `"1.500 kV"`,
`PrettyPrint(UNIT_VOLTS, 0.0015)` is `"1.500 mV"` and `PrettyPrint(UNIT_HZ, 2500000000.0)` is
`"2.500 GHz"`. -/
theorem C1_default_si_ladder (k : UnitType) (hk : k ∈ siKinds) (v : ℚ) :
    (1e9 ≤ |v| → chosen k v = some (v / 1e9, cstr "G")) ∧
    (1e6 ≤ |v| → |v| < 1e9 → chosen k v = some (v / 1e6, cstr "M")) ∧
    (1e3 ≤ |v| → |v| < 1e6 → chosen k v = some (v / 1e3, cstr "k")) ∧
    (1 ≤ |v| → |v| < 1e3 → chosen k v = some (v, cstr "")) ∧
    (|v| < 1 → chosen k v = some (v * 1e3, cstr "m")) ∧
    chosen k 0 = some (0 * 1e3, cstr "m") ∧
    PrettyPrint UNIT_VOLTS 1500.0 = cstr "1.500 kV" ∧
    PrettyPrint UNIT_VOLTS 0.0015 = cstr "1.500 mV" ∧
    PrettyPrint UNIT_HZ 2500000000.0 = cstr "2.500 GHz" := by
  have h0 : chosen k 0 = some (0 * 1e3, cstr "m") := by
    rw [chosen_of_mem_siKinds hk, defaultScale_eq]; norm_num
  rw [chosen_of_mem_siKinds hk, defaultScale_eq]
  refine ⟨?_, ?_, ?_, ?_, ?_, h0, by decide!, by decide!, by decide!⟩
  · intro h; rw [if_pos h]
  · intro h1 h2; rw [if_neg (not_le.mpr h2), if_pos h1]
  · intro h1 h2
    rw [if_neg (not_le.mpr (lt_trans h2 (by norm_num))), if_neg (not_le.mpr h2), if_pos h1]
  · intro h1 h2
    rw [if_neg (not_le.mpr (lt_trans h2 (by norm_num))),
      if_neg (not_le.mpr (lt_trans h2 (by norm_num))), if_neg (not_le.mpr h2),
      if_neg (not_lt.mpr h1)]
  · intro h
    rw [if_neg (not_le.mpr (lt_trans h (by norm_num))),
      if_neg (not_le.mpr (lt_trans h (by norm_num))),
      if_neg (not_le.mpr (lt_trans h (by norm_num))), if_pos h]

/-- C1 at voltage and `v = 1500`: the hypotheses of the kilo range hold and the pair is
`(1500/1e3, "k")`. -/
theorem C1_default_si_ladder_witness :
    UNIT_VOLTS ∈ siKinds ∧ (1e3:ℚ) ≤ |1500| ∧ |(1500:ℚ)| < 1e6 ∧
      chosen UNIT_VOLTS 1500 = some (1500 / 1e3, cstr "k") :=
  ⟨by decide, by norm_num, by norm_num,
    (C1_default_si_ladder UNIT_VOLTS (by decide) 1500).2.2.1 (by norm_num) (by norm_num)⟩
/-! ## C2: the ladder of `UNIT_PS` -/

/-- C3, as amended.  For each of the kinds millivolts, percent, decibels and counts and every
value `v`, whatever the default SI step has left (`r`, `sc`), the magnitude is the raw `v`, the
prefix is empty and the suffix is `"mV"`, `"%"`, `"dB"` or `""`.  The text formatted is `v` with
3 decimals, one space and the suffix; `PrettyPrint` returns its first 127 bytes, which is the
whole text whenever `|v| < 1e100`.  `PrettyPrint(UNIT_MILLIVOLTS, 1.5)` is `"1.500 mV"` and
`PrettyPrint(UNIT_PERCENT, 42.567)` is `"42.567 %"`. -/
theorem C3_forced_no_rescale (k : UnitType) (suffix : String) (hk : (k, suffix) ∈ rawKinds)
    (v : ℚ) :
    (∀ r sc, unitSwitch k v r sc = some ⟨v, cstr "", cstr suffix⟩) ∧
    PrettyPrint k v = snprintf 128 (fmtFixed 3 v ++ cstr " " ++ cstr suffix) ∧
    (|v| < 10 ^ 100 → PrettyPrint k v = fmtFixed 3 v ++ cstr " " ++ cstr suffix) ∧
    PrettyPrint UNIT_MILLIVOLTS 1.5 = cstr "1.500 mV" ∧
    PrettyPrint UNIT_PERCENT 42.567 = cstr "42.567 %" := by
  simp only [rawKinds, List.mem_cons, List.mem_singleton, Prod.mk.injEq, List.not_mem_nil,
    or_false] at hk
  have hsw : ∀ r sc, unitSwitch k v r sc = some ⟨v, cstr "", cstr suffix⟩ := by
    rcases hk with ⟨rfl, rfl⟩ | ⟨rfl, rfl⟩ | ⟨rfl, rfl⟩ | ⟨rfl, rfl⟩ <;> intro r sc <;>
      simp only [unitSwitch]
  have hs : unitScale k v = some ⟨v, cstr "", cstr suffix⟩ := hsw _ _
  have ht : formatText k v ⟨v, cstr "", cstr suffix⟩
      = fmtFixed 3 v ++ cstr " " ++ cstr suffix := by
    have h3 : formatText k v ⟨v, cstr "", cstr suffix⟩
        = fmtFixed 3 v ++ cstr " " ++ cstr "" ++ cstr suffix := by
      rcases hk with ⟨rfl, rfl⟩ | ⟨rfl, rfl⟩ | ⟨rfl, rfl⟩ | ⟨rfl, rfl⟩ <;>
        exact formatText_three (by decide) (by decide) (by decide) _ _ _ _
    rw [h3, cstr_empty, List.append_nil]
  refine ⟨hsw, ?_, ?_, by decide!, by decide!⟩
  · rw [PrettyPrint_eq_snprintf hs, ht]
  · intro hv
    rw [PrettyPrint_of_lt hs hv, ht]

/-- C3 at the counts kind and `v = -2500`: the text is `"-2500.000 "`. -/
theorem C3_forced_no_rescale_witness :
    (UNIT_COUNTS, "") ∈ rawKinds ∧ |(-2500 : ℚ)| < 10 ^ 100 ∧
      PrettyPrint UNIT_COUNTS (-2500) = fmtFixed 3 (-2500) ++ cstr " " ++ cstr "" :=
  ⟨by decide, by norm_num,
    (C3_forced_no_rescale UNIT_COUNTS "" (by decide) (-2500)).2.2.1 (by norm_num)⟩

/-- C3 as stated fails at the millivolts kind and `v = 2^500` (a value a `double` holds
exactly): the rendering of `v` with 3 decimals has 155 bytes, and the string returned is its
first 127 bytes, without decimals, space or `"mV"`. -/
theorem C3_forced_no_rescale_counterexample :
    (fmtFixed 3 (2 ^ 500)).length = 155 ∧
    PrettyPrint UNIT_MILLIVOLTS (2 ^ 500) ≠ fmtFixed 3 (2 ^ 500) ++ cstr " " ++ cstr "mV" ∧
    PrettyPrint UNIT_MILLIVOLTS (2 ^ 500) = (fmtFixed 3 (2 ^ 500)).take 127 ∧
    32 ∉ PrettyPrint UNIT_MILLIVOLTS (2 ^ 500) ∧
    ¬ (cstr "mV" <:+ PrettyPrint UNIT_MILLIVOLTS (2 ^ 500)) :=
  ⟨by decide!, by decide!, by decide!, by decide!, by decide!⟩

/-! ## C4: the sentinel of an unknown kind -/

theorem formatText_head (k : UnitType) (v : ℚ) (s : Scaled) :
    ∃ c t, formatText k v s = c :: t ∧ c ≠ 73 := by
  have key : ∀ (p : Nat) (x : ℚ) (rest : CString),
      ∃ c t, fmtFixed p x ++ rest = c :: t ∧ c ≠ 73 := by
    intro p x rest
    have hb := fmtFixed_bytes p x
    cases hf : fmtFixed p x with
    | nil => exact absurd hf (fmtFixed_ne_nil p x)
    | cons c t =>
      refine ⟨c, t ++ rest, rfl, ?_⟩
      have := hb c (by rw [hf]; exact List.mem_cons_self _ _)
      omega
  cases k <;> simp only [formatText, List.append_assoc] <;>
    first
    | exact key _ _ _
    | exact ⟨49, _, rfl, by decide⟩

/-- C4.  For every kind tag that is not one of the thirteen catalogued kinds and every value,
`PrettyPrint` returns exactly `"Invalid unit"`; for every catalogued kind it does not take the
`default:` branch, and what it returns is not that string. -/
theorem C4_invalid_unit (k : UnitType) (v : ℚ) :
    (k ∉ catalogue → PrettyPrint k v = cstr "Invalid unit") ∧
    (k ∈ catalogue → unitScale k v ≠ none ∧ PrettyPrint k v ≠ cstr "Invalid unit") := by
  constructor
  · intro hk
    cases k <;> first | rfl | exact absurd (by decide) hk
  · intro hk
    have hs : ∃ s, unitScale k v = some s := by
      cases k <;> first | exact ⟨_, rfl⟩ | exact absurd hk (by simp [catalogue])
    obtain ⟨s, hs⟩ := hs
    refine ⟨by rw [hs]; exact Option.some_ne_none s, ?_⟩
    obtain ⟨c, t, ht, hc⟩ := formatText_head k v s
    rw [PrettyPrint_eq_snprintf hs, ht]
    intro h
    have h0 : (snprintf 128 (c :: t)).head? = (cstr "Invalid unit").head? := by rw [h]
    have h1 : (snprintf 128 (c :: t)).head? = some c := rfl
    have h2 : (cstr "Invalid unit").head? = some 73 := by decide
    rw [h1, h2] at h0
    exact hc (Option.some.inj h0)

/-- C4 at an unknown tag and at a catalogued kind. -/
theorem C4_invalid_unit_witness :
    UNIT_OTHER 13 ∉ catalogue ∧ PrettyPrint (UNIT_OTHER 13) 1 = cstr "Invalid unit" ∧
      UNIT_DB ∈ catalogue ∧ unitScale UNIT_DB 1 ≠ none :=
  ⟨by decide, (C4_invalid_unit (UNIT_OTHER 13) 1).1 (by decide), by decide,
    ((C4_invalid_unit UNIT_DB 1).2 (by decide)).1⟩

/-! ## C5: values between 1 and 1000 -/

/-- C5, as amended.  For every kind that keeps the default SI scaling (frequency, sample-rate,
sample-depth, voltage, current, resistance, bitrate) and every value with `1 ≤ |v| < 1000`,
`PrettyPrint` chooses the raw value and no SI prefix; the string is `v` with 3 decimals, one
space and the suffix for frequency, voltage, current, resistance and bitrate, and `v` with 0
decimals, one space and the suffix for sample-rate and sample-depth. -/
theorem C5_unit_range (k : UnitType) (hk : k ∈ siKinds) (v : ℚ) (h1 : 1 ≤ |v|)
    (h2 : |v| < 1000) :
    ∃ suffix, unitScale k v = some ⟨v, cstr "", suffix⟩ ∧
      (k ≠ UNIT_SAMPLERATE → k ≠ UNIT_SAMPLEDEPTH →
        PrettyPrint k v = fmtFixed 3 v ++ cstr " " ++ suffix) ∧
      (k = UNIT_SAMPLERATE ∨ k = UNIT_SAMPLEDEPTH →
        PrettyPrint k v = fmtFixed 0 v ++ cstr " " ++ suffix) := by
  have hd : defaultScale v = (v, cstr "") := by
    rw [defaultScale_eq, if_neg (not_le.mpr (lt_trans h2 (by norm_num))),
      if_neg (not_le.mpr (lt_trans h2 (by norm_num))),
      if_neg (not_le.mpr (lt_of_lt_of_le h2 (by norm_num))), if_neg (not_lt.mpr h1)]
  have hv : |v| < 10 ^ 100 := lt_trans h2 (by norm_num)
  have hs : ∃ suffix, unitScale k v = some ⟨v, cstr "", suffix⟩ ∧ k ≠ UNIT_LOG_BER := by
    simp only [siKinds, List.mem_cons, List.mem_singleton, List.not_mem_nil, or_false] at hk
    rcases hk with rfl | rfl | rfl | rfl | rfl | rfl | rfl <;>
      exact ⟨_, by rw [unitScale, hd]; rfl, by decide⟩
  obtain ⟨suffix, hs, hlog⟩ := hs
  refine ⟨suffix, hs, ?_, ?_⟩
  · intro ha hb
    rw [PrettyPrint_of_lt hs hv, formatText_three hlog ha hb, cstr_empty, List.append_nil]
  · intro hab
    rw [PrettyPrint_of_lt hs hv, formatText_zero hab, cstr_empty, List.append_nil]

/-- C5 at voltage and `v = 5`: the hypotheses hold and the string is `"5.000 V"`. -/
theorem C5_unit_range_witness :
    UNIT_VOLTS ∈ siKinds ∧ (1 : ℚ) ≤ |5| ∧ |(5 : ℚ)| < 1000 ∧
      ∃ suffix, unitScale UNIT_VOLTS 5 = some ⟨5, cstr "", suffix⟩ ∧
        (UNIT_VOLTS ≠ UNIT_SAMPLERATE → UNIT_VOLTS ≠ UNIT_SAMPLEDEPTH →
          PrettyPrint UNIT_VOLTS 5 = fmtFixed 3 5 ++ cstr " " ++ suffix) ∧
        (UNIT_VOLTS = UNIT_SAMPLERATE ∨ UNIT_VOLTS = UNIT_SAMPLEDEPTH →
          PrettyPrint UNIT_VOLTS 5 = fmtFixed 0 5 ++ cstr " " ++ suffix) :=
  ⟨by decide, by norm_num, by norm_num,
    C5_unit_range UNIT_VOLTS (by decide) 5 (by norm_num) (by norm_num)⟩

/-- C5 as stated fails at sample-rate and `v = 5`: the kind is not among the six excepted ones,
`1 ≤ |5| < 1000`, and the string is `"5 S/s"`: no prefix, but no decimals either, so it is not
`"5.000 S/s"`. -/
theorem C5_unit_range_counterexample :
    UNIT_SAMPLERATE ∈ siKinds ∧ (1 : ℚ) ≤ |5| ∧ |(5 : ℚ)| < 1000 ∧
    PrettyPrint UNIT_SAMPLERATE 5 = cstr "5 S/s" ∧
    PrettyPrint UNIT_SAMPLERATE 5 ≠ fmtFixed 3 5 ++ cstr " " ++ cstr "" ++ cstr "S/s" ∧
    PrettyPrint UNIT_SAMPLERATE 5 ≠ cstr "5.000 S/s" ∧
    PrettyPrint UNIT_SAMPLEDEPTH 5 = cstr "5 S" :=
  ⟨by decide, by norm_num, by norm_num, by decide!, by decide!, by decide!, by decide!⟩

/-! ## C6: the shape of the string -/

theorem defaultScale_no_space (v : ℚ) : 32 ∉ (defaultScale v).2 := by
  rw [defaultScale_eq]
  split_ifs <;> dsimp only <;> decide

theorem psScale_no_space (v : ℚ) : 32 ∉ (psScale v).2 := by
  rw [psScale_eq]
  split_ifs <;> dsimp only <;> decide

theorem fmtFixed_no_space (prec : Nat) (x : ℚ) : 32 ∉ fmtFixed prec x := by
  intro h
  have := fmtFixed_bytes prec x 32 h
  omega

theorem unitScale_no_space {k : UnitType} {v : ℚ} {s : Scaled}
    (hs : unitScale k v = some s) : 32 ∉ s.scale ++ s.unit := by
  have hd := defaultScale_no_space v
  have hp := psScale_no_space v
  have he : (32 : Nat) ∉ cstr "" := by decide
  cases k <;> simp only [unitScale, unitSwitch, Option.some.injEq, reduceCtorEq] at hs <;>
    subst hs <;> dsimp only <;> rw [List.mem_append, not_or] <;>
    first
    | exact ⟨hd, by decide⟩
    | exact ⟨hp, by decide⟩
    | exact ⟨he, by decide⟩

/-- C6, as amended.  For every catalogued kind other than log-bit-error-rate and every value
`v`, the text formatted is the magnitude rendered with 0 or 3 decimals, one space, and the SI
prefix immediately followed by the unit suffix; neither the rendered magnitude nor
prefix+suffix holds a space.  `PrettyPrint` returns the first 127 bytes of that text; whenever
`|v| < 1e100` it returns the whole text, which then holds exactly one space. -/
theorem C6_output_shape (k : UnitType) (hk : k ∈ catalogue) (hlog : k ≠ UNIT_LOG_BER) (v : ℚ) :
    ∃ s d, unitScale k v = some s ∧ (d = 0 ∨ d = 3) ∧
      32 ∉ fmtFixed d s.value_rescaled ∧ 32 ∉ s.scale ++ s.unit ∧
      PrettyPrint k v
        = snprintf 128 (fmtFixed d s.value_rescaled ++ [32] ++ (s.scale ++ s.unit)) ∧
      (|v| < 10 ^ 100 →
        PrettyPrint k v = fmtFixed d s.value_rescaled ++ [32] ++ (s.scale ++ s.unit) ∧
        (PrettyPrint k v).count 32 = 1) := by
  have hs : ∃ s, unitScale k v = some s := by
    cases k <;> first | exact ⟨_, rfl⟩ | exact absurd hk (by simp [catalogue])
  obtain ⟨s, hs⟩ := hs
  have hsp : cstr " " = [32] := rfl
  have ht : ∃ d, (d = 0 ∨ d = 3) ∧
      formatText k v s = fmtFixed d s.value_rescaled ++ [32] ++ (s.scale ++ s.unit) := by
    obtain ⟨a, b, c⟩ := s
    by_cases h0 : k = UNIT_SAMPLERATE ∨ k = UNIT_SAMPLEDEPTH
    · exact ⟨0, Or.inl rfl, by rw [formatText_zero h0, hsp, List.append_assoc]⟩
    · rw [not_or] at h0
      exact ⟨3, Or.inr rfl, by rw [formatText_three hlog h0.1 h0.2, hsp, List.append_assoc]⟩
  obtain ⟨d, hd, ht⟩ := ht
  have hns := unitScale_no_space hs
  have hnf := fmtFixed_no_space d s.value_rescaled
  refine ⟨s, d, hs, hd, hnf, hns, by rw [PrettyPrint_eq_snprintf hs, ht], ?_⟩
  intro hv
  have heq : PrettyPrint k v = fmtFixed d s.value_rescaled ++ [32] ++ (s.scale ++ s.unit) := by
    rw [PrettyPrint_of_lt hs hv, ht]
  refine ⟨heq, ?_⟩
  rw [heq, List.count_append, List.count_append, List.count_eq_zero.mpr hnf,
    List.count_eq_zero.mpr hns]
  rfl

/-- C6 at resistance and `v = 4700`: the string is `"4.700 kΩ"`, with one space. -/
theorem C6_output_shape_witness :
    UNIT_OHMS ∈ catalogue ∧ UNIT_OHMS ≠ UNIT_LOG_BER ∧
      ∃ s d, unitScale UNIT_OHMS 4700 = some s ∧ (d = 0 ∨ d = 3) ∧
        32 ∉ fmtFixed d s.value_rescaled ∧ 32 ∉ s.scale ++ s.unit ∧
        PrettyPrint UNIT_OHMS 4700
          = snprintf 128 (fmtFixed d s.value_rescaled ++ [32] ++ (s.scale ++ s.unit)) ∧
        (|(4700 : ℚ)| < 10 ^ 100 →
          PrettyPrint UNIT_OHMS 4700
            = fmtFixed d s.value_rescaled ++ [32] ++ (s.scale ++ s.unit) ∧
          (PrettyPrint UNIT_OHMS 4700).count 32 = 1) :=
  ⟨by decide, by decide, C6_output_shape UNIT_OHMS (by decide) (by decide) 4700⟩

/-- C6 as stated fails at two inputs.  For the catalogued kind log-bit-error-rate and `v = -9`
the string is `"1e-9"`, which holds no space, hence is not a magnitude, a space and
prefix+suffix.  For frequency and `v = 5^9 * 2^479` (a value a `double` holds exactly) the
magnitude is `2^470` with prefix `"G"` and the string is its first 127 digits: no space and no
`"GHz"`. -/
theorem C6_output_shape_counterexample :
    UNIT_LOG_BER ∈ catalogue ∧
    PrettyPrint UNIT_LOG_BER (-9) = cstr "1e-9" ∧
    32 ∉ PrettyPrint UNIT_LOG_BER (-9) ∧
    UNIT_HZ ∈ catalogue ∧
    unitScale UNIT_HZ (5 ^ 9 * 2 ^ 479) = some ⟨2 ^ 470, cstr "G", cstr "Hz"⟩ ∧
    32 ∉ PrettyPrint UNIT_HZ (5 ^ 9 * 2 ^ 479) ∧
    ¬ (cstr "GHz" <:+ PrettyPrint UNIT_HZ (5 ^ 9 * 2 ^ 479)) :=
  ⟨by decide, by decide!, by decide!, by decide, by decide!, by decide!, by decide!⟩

/-! ## C7: log bit error rate -/

/-- C7, as amended.  For the log-bit-error-rate kind and every value `v`, the text formatted is
`"1e"` followed by the unscaled `v` with 0 decimals, whatever the scaling steps have left in
`s` (for instance at `v = 0.25` and `v = 12000`); `PrettyPrint` returns its first 127 bytes,
which is the whole text whenever `|v| < 1e100`.  `PrettyPrint(UNIT_LOG_BER, -9.0)` is
`"1e-9"`. -/
theorem C7_log_ber (v : ℚ) :
    (∀ s, formatText UNIT_LOG_BER v s = cstr "1e" ++ fmtFixed 0 v) ∧
    PrettyPrint UNIT_LOG_BER v = snprintf 128 (cstr "1e" ++ fmtFixed 0 v) ∧
    (|v| < 10 ^ 100 → PrettyPrint UNIT_LOG_BER v = cstr "1e" ++ fmtFixed 0 v) ∧
    PrettyPrint UNIT_LOG_BER (-9.0) = cstr "1e-9" ∧
    PrettyPrint UNIT_LOG_BER 0.25 = cstr "1e0" ∧
    PrettyPrint UNIT_LOG_BER 12000 = cstr "1e12000" := by
  have hs : unitScale UNIT_LOG_BER v = some ⟨v, cstr "", cstr ""⟩ := by
    simp only [unitScale, unitSwitch]
  refine ⟨fun s => formatText_log_ber v s, ?_, ?_, by decide!, by decide!, by decide!⟩
  · rw [PrettyPrint_eq_snprintf hs, formatText_log_ber]
  · intro hv
    rw [PrettyPrint_of_lt hs hv, formatText_log_ber]

/-- C7 at `v = -12.5`: the bound holds and the string is `"1e-12"` (the tie goes to the even
integer). -/
theorem C7_log_ber_witness :
    |(-12.5 : ℚ)| < 10 ^ 100 ∧
      PrettyPrint UNIT_LOG_BER (-12.5) = cstr "1e" ++ fmtFixed 0 (-12.5) :=
  ⟨by rw [abs_lt]; norm_num, (C7_log_ber (-12.5)).2.2.1 (by rw [abs_lt]; norm_num)⟩

/-- C7 as stated fails at `v = 2^500` (a value a `double` holds exactly): `"1e"` followed by
`v` with 0 decimals has 153 bytes, and the string returned is only its first 127 bytes. -/
theorem C7_log_ber_counterexample :
    (cstr "1e" ++ fmtFixed 0 (2 ^ 500)).length = 153 ∧
    (PrettyPrint UNIT_LOG_BER (2 ^ 500)).length = 127 ∧
    PrettyPrint UNIT_LOG_BER (2 ^ 500) ≠ cstr "1e" ++ fmtFixed 0 (2 ^ 500) :=
  ⟨by decide!, by decide!, by decide!⟩

/-! ## C8: sample rate and sample depth -/

theorem scanScale_cons (c : Nat) (rest : CString) :
    scanScale (c :: rest) = if isNumeric c = true then scanScale rest else prefixScale c := rfl

theorem scanScale_eq_find (str : CString) :
    scanScale str = (str.find? fun c => !isNumeric c).elim 1 prefixScale := by
  induction str with
  | nil => rfl
  | cons c rest ih =>
    rw [scanScale_cons]
    by_cases h : isNumeric c = true
    · rw [if_pos h, ih, List.find?_cons_of_neg _ (by simp [h])]
    · rw [if_neg h, List.find?_cons_of_pos _ (by simpa using h)]
      rfl

theorem scanScale_append (pre : CString) (c : Nat) (rest : CString)
    (hpre : ∀ x ∈ pre, isNumeric x = true) (hc : isNumeric c = false) :
    scanScale (pre ++ c :: rest) = prefixScale c := by
  induction pre with
  | nil => rw [List.nil_append, scanScale_cons, hc]; rfl
  | cons x pre ih =>
    rw [List.cons_append, scanScale_cons, if_pos (hpre x (List.mem_cons_self _ _))]
    exact ih fun y hy => hpre y (List.mem_cons_of_mem _ hy)

theorem scanScale_all_numeric (str : CString) (h : ∀ x ∈ str, isNumeric x = true) :
    scanScale str = 1 := by
  induction str with
  | nil => rfl
  | cons x rest ih =>
    rw [scanScale_cons, if_pos (h x (List.mem_cons_self _ _))]
    exact ih fun y hy => h y (List.mem_cons_of_mem _ hy)

theorem prefixScale_other (c : Nat) (h : c ∉ prefixLetters) : prefixScale c = 1 := by
  simp only [prefixLetters, List.mem_cons, List.mem_singleton, List.not_mem_nil, or_false,
    not_or] at h
  obtain ⟨h1, h2, h3, h4, h5, h6, h7⟩ := h
  unfold prefixScale
  rw [if_neg h1, if_neg h2, if_neg h3, if_neg h4, if_neg h5, if_neg h6, if_neg h7]

theorem unitFactor_of_ne {k : UnitType} (h : k ≠ UNIT_PS) (x : ℚ) : unitFactor k x = x := by
  cases k <;> first | rfl | exact absurd rfl h

theorem ParseString_of_number {ret0 : ℚ} {k : UnitType} {str : CString} {q : ℚ}
    (h : sscanf_lf 20 str = ScanResult.number q) :
    ParseString ret0 k str = some (unitFactor k (q * scanScale str)) := by
  unfold ParseString
  rw [h]

/-- C9.  For every text, the scale factor of `ParseString` is decided by the first character
that is not white space, a digit, `.` or `-`: `G` gives 1e9, `M` 1e6, `K` 1e3, `m` 1e-3, `u`
1e-6, `n` 1e-9, `p` 1e-12, every other character gives 1 (among them `k`, the first byte of the
micro sign, and `V`), and so does the absence of such a character; what follows that character
does not matter.  The number `sscanf` reads is multiplied by this factor.  For every kind
other than time-in-picoseconds `ParseString("1.5k")` is 1.5 and `ParseString("1.5K")` is
1500.0. -/
theorem C9_parse_scale (str : CString) :
    scanScale str = (str.find? fun c => !isNumeric c).elim 1 prefixScale ∧
    (∀ pre c rest, str = pre ++ c :: rest → (∀ x ∈ pre, isNumeric x = true) →
      isNumeric c = false → scanScale str = prefixScale c ∧
        ∀ rest2, scanScale (pre ++ c :: rest2) = scanScale str) ∧
    ((∀ x ∈ str, isNumeric x = true) → scanScale str = 1) ∧
    (prefixScale 'G'.toNat = 1e9 ∧ prefixScale 'M'.toNat = 1e6 ∧ prefixScale 'K'.toNat = 1e3 ∧
      prefixScale 'm'.toNat = 1e-3 ∧ prefixScale 'u'.toNat = 1e-6 ∧
      prefixScale 'n'.toNat = 1e-9 ∧ prefixScale 'p'.toNat = 1e-12) ∧
    (∀ c, c ∉ prefixLetters → prefixScale c = 1) ∧
    (prefixScale 'k'.toNat = 1 ∧ prefixScale 'V'.toNat = 1 ∧
      scanScale (cstr "1.5μ") = 1 ∧ scanScale (cstr "1.5 V") = 1) ∧
    (∀ ret0 k q, sscanf_lf 20 str = ScanResult.number q →
      ParseString ret0 k str = some (unitFactor k (q * scanScale str))) ∧
    (∀ ret0 k, k ≠ UNIT_PS → ParseString ret0 k (cstr "1.5k") = some 1.5) ∧
    (∀ ret0 k, k ≠ UNIT_PS → ParseString ret0 k (cstr "1.5K") = some 1500.0) := by
  refine ⟨scanScale_eq_find str, ?_, scanScale_all_numeric str,
    ⟨by decide!, by decide!, by decide!, by decide!, by decide!, by decide!, by decide!⟩,
    prefixScale_other, ⟨by decide!, by decide!, by decide!, by decide!⟩,
    fun _ _ _ h => ParseString_of_number h, ?_, ?_⟩
  · intro pre c rest hstr hpre hc
    subst hstr
    refine ⟨scanScale_append pre c rest hpre hc, fun rest2 => ?_⟩
    rw [scanScale_append pre c rest hpre hc, scanScale_append pre c rest2 hpre hc]
  · intro ret0 k hk
    have h : sscanf_lf 20 (cstr "1.5k") = ScanResult.number 1.5 := by decide!
    have hsc : scanScale (cstr "1.5k") = 1 := by decide!
    rw [ParseString_of_number h, hsc, unitFactor_of_ne hk, mul_one]
  · intro ret0 k hk
    have h : sscanf_lf 20 (cstr "1.5K") = ScanResult.number 1.5 := by decide!
    have hsc : scanScale (cstr "1.5K") = 1000 := by decide!
    rw [ParseString_of_number h, hsc, unitFactor_of_ne hk]
    norm_num

/-- C9 at the text `"-2.5 mV"`: the skipped run is `"-2.5 "`, the first other character is `m`,
and the scale factor is 1e-3 whatever follows. -/
theorem C9_parse_scale_witness :
    cstr "-2.5 mV" = cstr "-2.5 " ++ 'm'.toNat :: cstr "V" ∧
      (∀ x ∈ cstr "-2.5 ", isNumeric x = true) ∧ isNumeric 'm'.toNat = false ∧
      scanScale (cstr "-2.5 mV") = prefixScale 'm'.toNat ∧
      ∀ rest2, scanScale (cstr "-2.5 " ++ 'm'.toNat :: rest2) = scanScale (cstr "-2.5 mV") :=
  ⟨by decide, by decide, by decide,
    ((C9_parse_scale (cstr "-2.5 mV")).2.1 (cstr "-2.5 ") 'm'.toNat (cstr "V") (by decide)
      (by decide) (by decide)).1,
    ((C9_parse_scale (cstr "-2.5 mV")).2.1 (cstr "-2.5 ") 'm'.toNat (cstr "V") (by decide)
      (by decide) (by decide)).2⟩

/-! ## Auxiliary facts: reading a decimal text back -/

theorem digitsVal_foldl (l : List Nat) (init : Nat) :
    l.foldl (fun acc c => acc * 10 + (c - 48)) init = init * 10 ^ l.length + digitsVal l := by
  induction l generalizing init with
  | nil => simp [digitsVal]
  | cons c l ih =>
    unfold digitsVal
    rw [List.foldl_cons, List.foldl_cons, ih, ih (0 * 10 + (c - 48)), List.length_cons, pow_succ]
    ring

theorem digitsVal_append (a b : List Nat) :
    digitsVal (a ++ b) = digitsVal a * 10 ^ b.length + digitsVal b := by
  unfold digitsVal
  rw [List.foldl_append, digitsVal_foldl]
  rfl

theorem digitsVal_decDigits : ∀ (fuel n : Nat), n < fuel → digitsVal (decDigits fuel n) = n := by
  intro fuel
  induction fuel with
  | zero => intro n h; omega
  | succ fuel ih =>
    intro n hn
    unfold decDigits
    split_ifs with h10
    · simp [digitsVal]
    · rw [digitsVal_append, ih (n / 10) (by omega)]
      simp only [digitsVal, List.length_singleton, List.foldl_cons, List.foldl_nil]
      omega

theorem digitsVal_fracDigits : ∀ (d n : Nat), digitsVal (fracDigits d n) = n % 10 ^ d := by
  intro d
  induction d with
  | zero => intro n; simp [fracDigits, digitsVal, Nat.mod_one]
  | succ d ih =>
    intro n
    unfold fracDigits
    have h : n % 10 ^ (d + 1) = n % 10 + 10 * (n / 10 % 10 ^ d) := by
      rw [pow_succ', Nat.mod_mul]
    rw [digitsVal_append, ih (n / 10), h]
    simp only [digitsVal, List.length_singleton, List.foldl_cons, List.foldl_nil, pow_one]
    omega

theorem takeWhile_append_stop (p : Nat → Bool) (l tail : List Nat) (hl : ∀ c ∈ l, p c = true)
    (ht : ∀ c t, tail = c :: t → p c = false) :
    (l ++ tail).takeWhile p = l ∧ (l ++ tail).dropWhile p = tail := by
  induction l with
  | nil =>
    cases tail with
    | nil => exact ⟨rfl, rfl⟩
    | cons c t =>
      have := ht c t rfl
      simp [List.takeWhile, List.dropWhile, this]
  | cons x l ih =>
    have hx := hl x (List.mem_cons_self _ _)
    have := ih fun c hc => hl c (List.mem_cons_of_mem _ hc)
    simp [List.takeWhile, List.dropWhile, hx, this.1, this.2]

theorem scanExponent_stop (mark : Nat) (base m : ℚ) (tail : CString)
    (ht : ∀ c t, tail = c :: t → tolower c ≠ mark) :
    scanExponent mark base m tail = ScanResult.number m := by
  cases tail with
  | nil => rfl
  | cons c t =>
    simp only [scanExponent, ht c t rfl, if_false]

theorem scanDecimal_point (ip fp tail : CString) (hip : ∀ c ∈ ip, isdigit c = true)
    (hfp : ∀ c ∈ fp, isdigit c = true) (hne : ip ≠ [])
    (ht : ∀ c t, tail = c :: t → isdigit c = false ∧ tolower c ≠ 101) :
    scanDecimal (ip ++ 46 :: (fp ++ tail))
      = ScanResult.number ((digitsVal (ip ++ fp) : ℚ) / 10 ^ fp.length) := by
  have h1 := takeWhile_append_stop isdigit ip (46 :: (fp ++ tail)) hip
    (by intro c t h; rw [List.cons.injEq] at h; rw [← h.1]; rfl)
  have h2 := takeWhile_append_stop isdigit fp tail hfp (fun c t h => (ht c t h).1)
  unfold scanDecimal
  rw [h1.1, h1.2]
  simp only [h2.1, h2.2]
  rw [if_neg (fun h => hne h.1)]
  exact scanExponent_stop _ _ _ _ (fun c t h => (ht c t h).2)

theorem scanUnsigned_digit (d : Nat) (r : CString) (hd : isdigit d = true)
    (hr : ∀ x t, r = x :: t → tolower x ≠ 120) :
    scanUnsigned (d :: r) = scanDecimal (d :: r) := by
  have hd' : 48 ≤ d ∧ d ≤ 57 := by simpa [isdigit] using hd
  have hlow : tolower d = d := by unfold tolower; rw [if_neg (by omega)]
  unfold scanUnsigned
  split
  · next x t heq =>
    rw [List.cons.injEq] at heq
    rw [if_neg (hr x t heq.2)]
  · next c t heq =>
    rw [List.cons.injEq] at heq
    rw [← heq.1, hlow, if_neg (by omega)]
  · next heq => exact absurd heq (List.cons_ne_nil _ _)

theorem isspace_of_isdigit {d : Nat} (hd : isdigit d = true) : isspace d = false := by
  have hd' : 48 ≤ d ∧ d ≤ 57 := by simpa [isdigit] using hd
  simp only [isspace, Bool.or_eq_false_iff, beq_eq_false_iff_ne, Bool.and_eq_false_iff,
    decide_eq_false_iff_not]
  omega

theorem scanSign_digit (d : Nat) (r : CString) (hd : isdigit d = true) :
    scanSign (d :: r) = (false, d :: r) := by
  have hd' : 48 ≤ d ∧ d ≤ 57 := by simpa [isdigit] using hd
  unfold scanSign
  split
  · next rest heq => rw [List.cons.injEq] at heq; omega
  · next rest heq => rw [List.cons.injEq] at heq; omega
  · rfl

theorem take_head {rest : CString} {k c : Nat} {t : CString} (h : rest.take k = c :: t) :
    ∃ t', rest = c :: t' := by
  cases rest with
  | nil => simp at h
  | cons x xs =>
    cases k with
    | zero => simp at h
    | succ k =>
      rw [List.take_succ_cons, List.cons.injEq] at h
      exact ⟨xs, by rw [h.1]⟩

theorem sscanf_lf_signed (neg : Bool) (body : CString) (d : Nat) (r : CString) (q : ℚ)
    (hb : body.take (20 - (if neg then 1 else 0)) = d :: r) (hd : isdigit d = true)
    (hx : ∀ x t, r = x :: t → tolower x ≠ 120)
    (hq : scanDecimal (d :: r) = ScanResult.number q) :
    sscanf_lf 20 ((if neg then [45] else []) ++ body)
      = ScanResult.number (if neg then -q else q) := by
  obtain ⟨body', hbody⟩ := take_head hb
  have hsp := isspace_of_isdigit hd
  cases neg with
  | true =>
    have hdrop : (([45] : CString) ++ body).dropWhile isspace = 45 :: body := by
      simp [List.dropWhile, isspace]
    have htake : (45 :: body).take 20 = 45 :: d :: r := by
      rw [List.take_succ_cons]
      simpa using hb
    unfold sscanf_lf
    simp only [if_true, hdrop, htake]
    have hs : scanSign (45 :: d :: r) = (true, d :: r) := rfl
    rw [hs]
    simp only [scanUnsigned_digit d r hd hx, hq, if_true]
  | false =>
    have hdrop : (([] : CString) ++ body).dropWhile isspace = body := by
      rw [List.nil_append, hbody]
      simp [List.dropWhile, hsp]
    have htake : body.take 20 = d :: r := by simpa using hb
    unfold sscanf_lf
    simp only [Bool.false_eq_true, if_false, hdrop, htake, scanSign_digit d r hd]
    simp only [scanUnsigned_digit d r hd hx, hq]

theorem tolower_ne_of_digit_or_point {x : Nat} (h : isdigit x = true ∨ x = 46) :
    tolower x ≠ 120 := by
  unfold tolower
  rcases h with h | h
  · have : 48 ≤ x ∧ x ≤ 57 := by simpa [isdigit] using h
    split_ifs <;> omega
  · subst h; decide

theorem sscanf_lf_point (neg : Bool) (ip fp rest : CString)
    (hip : ∀ c ∈ ip, isdigit c = true) (hfp : ∀ c ∈ fp, isdigit c = true) (hne : ip ≠ [])
    (hlen : (if neg then 1 else 0) + ip.length + 1 + fp.length ≤ 20)
    (hrest : ∀ c t, rest = c :: t → isdigit c = false ∧ tolower c ≠ 101) :
    sscanf_lf 20 ((if neg then [45] else []) ++ ((ip ++ 46 :: fp) ++ rest))
      = ScanResult.number
          ((if neg then -1 else 1) * ((digitsVal (ip ++ fp) : ℚ) / 10 ^ fp.length)) := by
  obtain ⟨d, ip', rfl⟩ := List.exists_cons_of_ne_nil hne
  have hlen' : (d :: ip' ++ 46 :: fp).length ≤ 20 - (if neg then 1 else 0) := by
    simp only [List.length_append, List.length_cons] at hlen ⊢
    split_ifs at hlen ⊢ <;> omega
  have hb : ((d :: ip' ++ 46 :: fp) ++ rest).take (20 - (if neg then 1 else 0))
      = d :: (ip' ++ 46 :: (fp ++ rest.take
          (20 - (if neg then 1 else 0) - (d :: ip' ++ 46 :: fp).length))) := by
    rw [List.take_append_eq_append_take, List.take_of_length_le hlen']
    simp
  have hq := scanDecimal_point (d :: ip') fp
    (rest.take (20 - (if neg then 1 else 0) - (d :: ip' ++ 46 :: fp).length)) hip hfp
    (List.cons_ne_nil _ _)
    (fun c t h => by
      obtain ⟨t', ht'⟩ := take_head h
      exact hrest c t' ht')
  rw [List.cons_append] at hq
  have hx : ∀ x t, ip' ++ 46 :: (fp ++ rest.take
      (20 - (if neg then 1 else 0) - (d :: ip' ++ 46 :: fp).length)) = x :: t
      → tolower x ≠ 120 := by
    intro x t h
    apply tolower_ne_of_digit_or_point
    cases ip' with
    | nil =>
      rw [List.nil_append, List.cons.injEq] at h
      exact Or.inr h.1.symm
    | cons y ys =>
      rw [List.cons_append, List.cons.injEq] at h
      rw [← h.1]
      exact Or.inl (hip y (List.mem_cons_of_mem _ (List.mem_cons_self _ _)))
  have := sscanf_lf_signed neg _ d _ _ hb (hip d (List.mem_cons_self _ _)) hx hq
  rw [this]
  cases neg <;> simp

theorem digitsVal_fmt (prec n : Nat) :
    digitsVal (decDigits (n / 10 ^ prec + 1) (n / 10 ^ prec) ++ fracDigits prec (n % 10 ^ prec))
      = n := by
  rw [digitsVal_append, digitsVal_decDigits _ _ (Nat.lt_succ_self _), digitsVal_fracDigits,
    fracDigits_length, Nat.mod_mod, Nat.div_add_mod']

theorem fmtFixed_eq_parts (prec : Nat) (hprec : prec ≠ 0) (x : ℚ) :
    fmtFixed prec x = (if decide (x < 0) = true then [45] else [])
      ++ (decDigits (scaledRound prec x / 10 ^ prec + 1) (scaledRound prec x / 10 ^ prec)
        ++ 46 :: fracDigits prec (scaledRound prec x % 10 ^ prec)) := by
  unfold fmtFixed
  rw [if_neg hprec, List.append_assoc]
  simp only [decide_eq_true_eq]

theorem sscanf_lf_fmtFixed (prec : Nat) (hprec : prec ≠ 0) (x : ℚ) (rest : CString)
    (hlen : (fmtFixed prec x).length ≤ 20)
    (hrest : ∀ c t, rest = c :: t → isdigit c = false ∧ tolower c ≠ 101) :
    sscanf_lf 20 (fmtFixed prec x ++ rest) = ScanResult.number (fmtValue prec x) := by
  rw [fmtFixed_eq_parts prec hprec] at hlen ⊢
  have hl : (if decide (x < 0) = true then 1 else 0)
      + (decDigits (scaledRound prec x / 10 ^ prec + 1) (scaledRound prec x / 10 ^ prec)).length
      + 1 + (fracDigits prec (scaledRound prec x % 10 ^ prec)).length ≤ 20 := by
    simp only [List.length_append, List.length_cons] at hlen
    split_ifs at hlen ⊢ <;> simp only [List.length_cons, List.length_nil] at hlen <;> omega
  rw [List.append_assoc]
  rw [sscanf_lf_point (decide (x < 0)) _ _ rest
    (fun c hc => by
      have := decDigits_bytes _ _ c hc
      simp [isdigit, this.1, this.2])
    (fun c hc => by
      have := fracDigits_bytes _ _ c hc
      simp [isdigit, this.1, this.2])
    (decDigits_ne_nil _ _) hl hrest]
  · rw [digitsVal_fmt, fracDigits_length]
    unfold fmtValue
    simp only [decide_eq_true_eq]
theorem isNumeric_fmtFixed (prec : Nat) (x : ℚ) : ∀ c ∈ fmtFixed prec x, isNumeric c = true := by
  intro c hc
  rcases fmtFixed_bytes prec x c hc with h | h | h
  · subst h; decide
  · subst h; decide
  · simp [isNumeric, isdigit, h.1, h.2]

theorem scanScale_fmtFixed (prec : Nat) (x : ℚ) (c : Nat) (t : CString)
    (hc : isNumeric c = false) :
    scanScale (fmtFixed prec x ++ 32 :: c :: t) = prefixScale c := by
  have h : fmtFixed prec x ++ 32 :: c :: t = (fmtFixed prec x ++ [32]) ++ c :: t := by
    rw [List.append_assoc]
    rfl
  rw [h]
  apply scanScale_append _ _ _ _ hc
  intro y hy
  rw [List.mem_append, List.mem_singleton] at hy
  rcases hy with hy | rfl
  · exact isNumeric_fmtFixed prec x y hy
  · decide

theorem roundDiv_near (a b : Nat) (hb : 0 < b) :
    2 * (roundDiv a b * b) ≤ 2 * a + b ∧ 2 * a ≤ 2 * (roundDiv a b * b) + b := by
  have h := Nat.div_add_mod a b
  have hr := Nat.mod_lt a hb
  have hm : a / b * b = b * (a / b) := Nat.mul_comm _ _
  unfold roundDiv
  split_ifs <;> simp only [Nat.add_mul, Nat.one_mul, hm] <;>
    generalize b * (a / b) = w at * <;> omega

theorem fmtValue_near (prec : Nat) (x : ℚ) :
    |fmtValue prec x - x| ≤ 1 / (2 * 10 ^ prec) := by
  have hden : (0 : ℚ) < x.den := by exact_mod_cast x.den_pos
  have hp : (0 : ℚ) < 10 ^ prec := by positivity
  obtain ⟨h1, h2⟩ := roundDiv_near (x.num.natAbs * 10 ^ prec) x.den x.den_pos
  have h1' : (2 : ℚ) * ((scaledRound prec x : ℚ) * x.den)
      ≤ 2 * ((x.num.natAbs : ℚ) * 10 ^ prec) + x.den := by
    unfold scaledRound
    exact_mod_cast h1
  have h2' : (2 : ℚ) * ((x.num.natAbs : ℚ) * 10 ^ prec)
      ≤ 2 * ((scaledRound prec x : ℚ) * x.den) + x.den := by
    unfold scaledRound
    exact_mod_cast h2
  have habs : |x| = (x.num.natAbs : ℚ) / x.den := by
    conv_lhs => rw [← Rat.num_div_den x]
    rw [abs_div, Nat.abs_cast, Nat.cast_natAbs, Int.cast_abs]
  have hnum : (x.num.natAbs : ℚ) = |x| * x.den := by
    rw [habs, div_mul_cancel₀ _ (ne_of_gt hden)]
  rw [hnum] at h1' h2'
  set n : ℚ := (scaledRound prec x : ℚ) with hn
  set A : ℚ := |x| with hA
  set b : ℚ := (x.den : ℚ) with hb
  set P : ℚ := 10 ^ prec with hP
  have g1 : 2 * n ≤ 2 * (A * P) + 1 :=
    le_of_mul_le_mul_right (by linarith : 2 * n * b ≤ (2 * (A * P) + 1) * b) hden
  have g2 : 2 * (A * P) ≤ 2 * n + 1 :=
    le_of_mul_le_mul_right (by linarith : 2 * (A * P) * b ≤ (2 * n + 1) * b) hden
  have key : abs (n / P - A) ≤ 1 / (2 * P) := by
    have e : n / P - A = (n - A * P) / P := by field_simp; ring
    have hab : abs (n - A * P) ≤ 1 / 2 := by
      rw [abs_le]
      constructor <;> linarith
    rw [e, abs_div, abs_of_pos hp, div_le_div_iff₀ hp (by positivity)]
    nlinarith [abs_nonneg (n - A * P)]
  unfold fmtValue
  by_cases hx : x < 0
  · rw [if_pos hx]
    have hxa : x = -A := by rw [hA, abs_of_neg hx, neg_neg]
    have e : -1 * (n / P) - x = -(n / P - A) := by rw [hxa]; ring
    rw [e, abs_neg]
    exact key
  · rw [if_neg hx]
    have hxa : x = A := by rw [hA, abs_of_nonneg (not_lt.mp hx)]
    have e : 1 * (n / P) - x = n / P - A := by rw [← hxa]; ring
    rw [e]
    exact key
theorem roundTrip_error (m mult v : ℚ) (hmult : 0 < mult) (hv : v = m * mult) :
    |fmtValue 3 m * mult - v| ≤ 0.0005 * mult := by
  have h := fmtValue_near 3 m
  have e : fmtValue 3 m * mult - v = (fmtValue 3 m - m) * mult := by rw [hv]; ring
  rw [e, abs_mul, abs_of_pos hmult]
  have h' : |fmtValue 3 m - m| ≤ 0.0005 := by
    refine le_trans h ?_
    norm_num
  exact mul_le_mul_of_nonneg_right h' (le_of_lt hmult)

theorem defaultScale_giga {v : ℚ} (h : 1e9 ≤ |v|) : defaultScale v = (v / 1e9, cstr "G") := by
  rw [defaultScale_eq, if_pos h]

theorem defaultScale_mega {v : ℚ} (h1 : 1e6 ≤ |v|) (h2 : |v| < 1e9) :
    defaultScale v = (v / 1e6, cstr "M") := by
  rw [defaultScale_eq, if_neg (not_le.mpr h2), if_pos h1]

theorem defaultScale_kilo {v : ℚ} (h1 : 1e3 ≤ |v|) (h2 : |v| < 1e6) :
    defaultScale v = (v / 1e3, cstr "k") := by
  rw [defaultScale_eq, if_neg (not_le.mpr (lt_trans h2 (by norm_num))), if_neg (not_le.mpr h2),
    if_pos h1]

theorem defaultScale_unit {v : ℚ} (h1 : 1 ≤ |v|) (h2 : |v| < 1e3) :
    defaultScale v = (v, cstr "") := by
  rw [defaultScale_eq, if_neg (not_le.mpr (lt_trans h2 (by norm_num))),
    if_neg (not_le.mpr (lt_trans h2 (by norm_num))), if_neg (not_le.mpr h2),
    if_neg (not_lt.mpr h1)]

theorem defaultScale_milli {v : ℚ} (h : |v| < 1) : defaultScale v = (v * 1e3, cstr "m") := by
  rw [defaultScale_eq, if_neg (not_le.mpr (lt_trans h (by norm_num))),
    if_neg (not_le.mpr (lt_trans h (by norm_num))),
    if_neg (not_le.mpr (lt_trans h (by norm_num))), if_pos h]

theorem abs_div_lt {v c B : ℚ} (hc : 0 < c) (h : |v| < B * c) : |v / c| < B := by
  rw [abs_div, abs_of_pos hc, div_lt_iff₀ hc]
  exact h

theorem roundTripKinds_switch {k : UnitType} (hk : k ∈ roundTripKinds) (v r : ℚ)
    (sc : CString) :
    ∃ c0 t0, unitSwitch k v r sc = some ⟨r, sc, c0 :: t0⟩ ∧ isNumeric c0 = false ∧
      prefixScale c0 = 1 ∧ k ≠ UNIT_PS ∧ k ≠ UNIT_LOG_BER ∧ k ≠ UNIT_SAMPLERATE ∧
      k ≠ UNIT_SAMPLEDEPTH := by
  simp only [roundTripKinds, List.mem_cons, List.mem_singleton, List.not_mem_nil, or_false]
    at hk
  rcases hk with rfl | rfl | rfl
  · exact ⟨86, [], rfl, by decide, by decide!, by decide, by decide, by decide, by decide⟩
  · exact ⟨72, [122], rfl, by decide, by decide!, by decide, by decide, by decide, by decide⟩
  · exact ⟨65, [], rfl, by decide, by decide!, by decide, by decide, by decide, by decide⟩

theorem prefixScale_G : prefixScale 71 = 1e9 := by decide!

theorem prefixScale_M : prefixScale 77 = 1e6 := by decide!

theorem prefixScale_m : prefixScale 109 = 1e-3 := by decide!

theorem prefixScale_n : prefixScale 110 = 1e-9 := by decide!

theorem prefixScale_p : prefixScale 112 = 1e-12 := by decide!

theorem prefixScale_s : prefixScale 115 = 1 := by decide!

theorem psScale_none {v : ℚ} (h : 1e12 ≤ |v|) : psScale v = (v / 1e12, cstr "") := by
  rw [psScale_eq, if_pos h]

theorem psScale_milli {v : ℚ} (h1 : 1e9 ≤ |v|) (h2 : |v| < 1e12) :
    psScale v = (v / 1e9, cstr "m") := by
  rw [psScale_eq, if_neg (not_le.mpr h2), if_pos h1]

theorem psScale_micro {v : ℚ} (h1 : 1e6 ≤ |v|) (h2 : |v| < 1e9) :
    psScale v = (v / 1e6, cstr "μ") := by
  rw [psScale_eq, if_neg (not_le.mpr (lt_trans h2 (by norm_num))), if_neg (not_le.mpr h2),
    if_pos h1]

theorem psScale_nano {v : ℚ} (h1 : 1e3 ≤ |v|) (h2 : |v| < 1e6) :
    psScale v = (v / 1e3, cstr "n") := by
  rw [psScale_eq, if_neg (not_le.mpr (lt_trans h2 (by norm_num))),
    if_neg (not_le.mpr (lt_trans h2 (by norm_num))), if_neg (not_le.mpr h2), if_pos h1]

theorem psScale_pico {v : ℚ} (h : |v| < 1e3) : psScale v = (v, cstr "p") := by
  rw [psScale_eq, if_neg (not_le.mpr (lt_trans h (by norm_num))),
    if_neg (not_le.mpr (lt_trans h (by norm_num))),
    if_neg (not_le.mpr (lt_trans h (by norm_num))), if_neg (not_le.mpr h)]

theorem log2Fuel_spec : ∀ (fuel n : Nat), n ≤ fuel → 1 ≤ n →
    2 ^ log2Fuel fuel n ≤ n ∧ n < 2 ^ (log2Fuel fuel n + 1) := by
  intro fuel
  induction fuel with
  | zero => intro n h1 h2; omega
  | succ fuel ih =>
    intro n h1 h2
    unfold log2Fuel
    split_ifs with h
    · constructor
      · simpa using h2
      · simpa using h
    · obtain ⟨ha, hb⟩ := ih (n / 2) (by omega) (by omega)
      constructor
      · rw [pow_succ]
        omega
      · rw [pow_succ]
        omega

theorem floorLog2_le (a b : Nat) (ha : 0 < a) (hb : 0 < b) :
    (2 : ℚ) ^ floorLog2 a b ≤ (a : ℚ) / b := by
  obtain ⟨ha1, _⟩ := log2Fuel_spec a a le_rfl ha
  obtain ⟨_, hb2⟩ := log2Fuel_spec b b le_rfl hb
  have hbq : (0 : ℚ) < b := by exact_mod_cast hb
  have h2 : (2 : ℚ) ≠ 0 := by norm_num
  unfold floorLog2
  generalize log2Fuel a a = la at *
  generalize log2Fuel b b = lb at *
  have ha1' : (2 : ℚ) ^ la ≤ a := by exact_mod_cast ha1
  have hb2' : (b : ℚ) < 2 ^ (lb + 1) := by exact_mod_cast hb2
  have hpa : (0 : ℚ) < 2 ^ la := by positivity
  have hpb : (0 : ℚ) < 2 ^ lb := by positivity
  have hsplit : (2 : ℚ) ^ ((la : ℤ) - lb) = 2 ^ la / 2 ^ lb := by
    rw [zpow_sub₀ h2, zpow_natCast, zpow_natCast]
  have hlow : (2 : ℚ) ^ ((la : ℤ) - lb - 1) ≤ (a : ℚ) / b := by
    rw [show (la : ℤ) - lb - 1 = (la : ℤ) - (lb + 1 : ℕ) by push_cast; ring]
    rw [zpow_sub₀ h2, zpow_natCast, zpow_natCast]
    have hpb1 : (0 : ℚ) < 2 ^ (lb + 1) := by positivity
    rw [div_le_div_iff₀ hpb1 hbq]
    nlinarith [ha1', hb2', hbq, hpb1]
  by_cases hge : la ≥ lb
  · simp only [hge, ↓reduceIte]
    by_cases hc : b * 2 ^ (la - lb) ≤ a
    · simp only [hc, ↓reduceIte]
      rw [le_div_iff₀ hbq, hsplit]
      have : ((b * 2 ^ (la - lb) : ℕ) : ℚ) ≤ a := by exact_mod_cast hc
      rw [Nat.cast_mul, Nat.cast_pow, Nat.cast_ofNat] at this
      have e : (2 : ℚ) ^ (la - lb) = 2 ^ la / 2 ^ lb := by
        rw [eq_div_iff (by positivity), ← pow_add, Nat.sub_add_cancel hge]
      rw [e] at this
      linarith
    · simp only [hc, ↓reduceIte]
      exact hlow
  · simp only [hge, ↓reduceIte]
    rw [not_le] at hge
    by_cases hc : b ≤ a * 2 ^ (lb - la)
    · simp only [hc, ↓reduceIte]
      rw [le_div_iff₀ hbq, hsplit]
      have : ((b : ℕ) : ℚ) ≤ ((a * 2 ^ (lb - la) : ℕ) : ℚ) := by exact_mod_cast hc
      rw [Nat.cast_mul, Nat.cast_pow, Nat.cast_ofNat] at this
      have e : (2 : ℚ) ^ (lb - la) = 2 ^ lb / 2 ^ la := by
        rw [eq_div_iff (by positivity), ← pow_add, Nat.sub_add_cancel (le_of_lt hge)]
      rw [e] at this
      rw [div_mul_eq_mul_div, div_le_iff₀ hpb]
      rw [← mul_div_assoc, le_div_iff₀ hpa] at this
      linarith
    · simp only [hc, ↓reduceIte]
      exact hlow

theorem roundDiv_near_rat (a b : Nat) (hb : 0 < b) :
    |(roundDiv a b : ℚ) - (a : ℚ) / b| ≤ 1 / 2 := by
  obtain ⟨h1, h2⟩ := roundDiv_near a b hb
  have hbq : (0 : ℚ) < b := by exact_mod_cast hb
  have h1' : (2 : ℚ) * ((roundDiv a b : ℚ) * b) ≤ 2 * a + b := by exact_mod_cast h1
  have h2' : (2 : ℚ) * a ≤ 2 * ((roundDiv a b : ℚ) * b) + b := by exact_mod_cast h2
  have e : (roundDiv a b : ℚ) - (a : ℚ) / b = ((roundDiv a b : ℚ) * b - a) / b := by
    field_simp
  rw [e, abs_div, abs_of_pos hbq, div_le_iff₀ hbq, abs_le]
  constructor <;> linarith

theorem rat_abs_eq (x : ℚ) : |x| = (x.num.natAbs : ℚ) / x.den := by
  conv_lhs => rw [← Rat.num_div_den x]
  rw [abs_div, Nat.abs_cast, Nat.cast_natAbs, Int.cast_abs]

theorem roundAbs64_zero : roundAbs64 0 = 0 := by decide!

theorem roundAbs64_nonneg (x : ℚ) : 0 ≤ roundAbs64 x := by
  unfold roundAbs64
  split_ifs <;> positivity

/-- The error of one rounding: half the spacing, which is at most `|x| / 2^53` for a normal
result and `1 / 2^1075` for a subnormal one. -/
theorem roundAbs64_near (x : ℚ) :
    abs (roundAbs64 x - |x|) ≤ |x| / 2 ^ 53 + 1 / 2 ^ 1075 := by
  by_cases hx0 : x = 0
  · subst hx0
    rw [roundAbs64_zero]
    norm_num
  have hden := x.den_pos
  have hdq : (0 : ℚ) < x.den := by exact_mod_cast hden
  have hnum : 0 < x.num.natAbs := Int.natAbs_pos.mpr (Rat.num_ne_zero.mpr hx0)
  have habs := rat_abs_eq x
  have hlog := floorLog2_le x.num.natAbs x.den hnum hden
  rw [← habs] at hlog
  have hxpos : 0 < |x| := abs_pos.mpr hx0
  unfold roundAbs64
  have hq : quantumExp x.num.natAbs x.den = max (floorLog2 x.num.natAbs x.den - 52) (-1074) :=
    rfl
  generalize quantumExp x.num.natAbs x.den = p at *
  generalize floorLog2 x.num.natAbs x.den = e at *
  -- half the spacing is within the bound
  have hhalf : (2 : ℚ) ^ p / 2 ≤ |x| / 2 ^ 53 + 1 / 2 ^ 1075 := by
    rcases le_total (e - 52) (-1074) with hle | hle
    · rw [max_eq_right hle] at hq
      rw [hq]
      have : (2 : ℚ) ^ (-1074 : ℤ) / 2 = 1 / 2 ^ 1075 := by
        rw [zpow_neg, zpow_ofNat]
        norm_num
      rw [this]
      have : (0 : ℚ) ≤ |x| / 2 ^ 53 := by positivity
      linarith
    · rw [max_eq_left hle] at hq
      rw [hq, zpow_sub₀ (by norm_num : (2 : ℚ) ≠ 0), zpow_ofNat]
      have h1 : (2 : ℚ) ^ e / 2 ^ 52 / 2 = 2 ^ e / 2 ^ 53 := by
        rw [div_div]
        norm_num
      rw [h1]
      have h2 : (2 : ℚ) ^ e / 2 ^ 53 ≤ |x| / 2 ^ 53 :=
        div_le_div_of_nonneg_right hlog (by positivity)
      have : (0 : ℚ) ≤ 1 / 2 ^ 1075 := by positivity
      linarith
  refine le_trans ?_ hhalf
  split_ifs with hp
  · -- the spacing is an integer power
    have hP : (2 : ℚ) ^ p = 2 ^ p.toNat := by
      conv_lhs => rw [← Int.toNat_of_nonneg hp]
      rw [zpow_natCast]
    have hb' : 0 < x.den * 2 ^ p.toNat := by positivity
    have hr := roundDiv_near_rat x.num.natAbs (x.den * 2 ^ p.toNat) hb'
    rw [Nat.cast_mul, Nat.cast_pow, Nat.cast_ofNat, ← div_div, ← habs] at hr
    rw [hP]
    have hpos : (0 : ℚ) < 2 ^ p.toNat := by positivity
    have e1 : (roundDiv x.num.natAbs (x.den * 2 ^ p.toNat) : ℚ) * 2 ^ p.toNat - |x|
        = ((roundDiv x.num.natAbs (x.den * 2 ^ p.toNat) : ℚ) - |x| / 2 ^ p.toNat)
          * 2 ^ p.toNat := by
      field_simp
    rw [e1, abs_mul, abs_of_pos hpos]
    calc abs ((roundDiv x.num.natAbs (x.den * 2 ^ p.toNat) : ℚ) - |x| / 2 ^ p.toNat)
          * 2 ^ p.toNat
        ≤ 1 / 2 * 2 ^ p.toNat := mul_le_mul_of_nonneg_right hr (le_of_lt hpos)
      _ = 2 ^ p.toNat / 2 := by ring
  · -- the spacing is the inverse of an integer power
    rw [not_le] at hp
    have hP : (2 : ℚ) ^ p = 1 / 2 ^ (-p).toNat := by
      have : p = -((-p).toNat : ℤ) := by
        rw [Int.toNat_of_nonneg (by omega)]
        ring
      conv_lhs => rw [this]
      rw [zpow_neg, zpow_natCast, one_div]
    have hr := roundDiv_near_rat (x.num.natAbs * 2 ^ (-p).toNat) x.den hden
    rw [Nat.cast_mul, Nat.cast_pow, Nat.cast_ofNat, mul_div_right_comm, ← habs] at hr
    rw [hP]
    have hpos : (0 : ℚ) < 2 ^ (-p).toNat := by positivity
    have e1 : (roundDiv (x.num.natAbs * 2 ^ (-p).toNat) x.den : ℚ) / 2 ^ (-p).toNat - |x|
        = ((roundDiv (x.num.natAbs * 2 ^ (-p).toNat) x.den : ℚ) - |x| * 2 ^ (-p).toNat)
          / 2 ^ (-p).toNat := by
      field_simp
      ring
    rw [e1, abs_div, abs_of_pos hpos, div_div, div_le_div_iff₀ hpos (by positivity)]
    calc abs ((roundDiv (x.num.natAbs * 2 ^ (-p).toNat) x.den : ℚ) - |x| * 2 ^ (-p).toNat)
          * (2 ^ (-p).toNat * 2)
        ≤ 1 / 2 * (2 ^ (-p).toNat * 2) :=
          mul_le_mul_of_nonneg_right hr (by positivity)
      _ = 1 * 2 ^ (-p).toNat := by ring

theorem round64Fin_near (x : ℚ) : |round64Fin x - x| ≤ |x| / 2 ^ 53 + 1 / 2 ^ 1075 := by
  have h := roundAbs64_near x
  unfold round64Fin
  by_cases hx : x < 0
  · rw [if_pos hx]
    rw [abs_of_neg hx] at h ⊢
    have e : -roundAbs64 x - x = -(roundAbs64 x - -x) := by ring
    rw [e, abs_neg]
    exact h
  · rw [if_neg hx]
    rw [abs_of_nonneg (not_lt.mp hx)] at h ⊢
    exact h

theorem round64_of_le (x : ℚ) (hx : |x| ≤ 2 ^ 1000) : round64 x = some (round64Fin x) := by
  have h := roundAbs64_near x
  rw [abs_le] at h
  have h1 : roundAbs64 x ≤ |x| + (|x| / 2 ^ 53 + 1 / 2 ^ 1075) := by linarith [h.2]
  have h2 : |x| / 2 ^ 53 ≤ 2 ^ 1000 := by
    have : |x| / 2 ^ 53 ≤ |x| := div_le_self (abs_nonneg x) (by norm_num)
    linarith
  have h3 : (1 : ℚ) / 2 ^ 1075 ≤ 1 := by
    rw [div_le_one (by positivity)]
    exact one_le_pow₀ (by norm_num)
  have h4 : (2 : ℚ) ^ 1000 + 2 ^ 1000 + 1 < 2 ^ 1024 := by norm_num
  unfold round64
  rw [if_neg (not_le.mpr (by linarith))]

theorem unitFactor64_of_ne {k : UnitType} (h : k ≠ UNIT_PS) (x : Option ℚ) :
    unitFactor64 k x = x := by
  cases k <;> first | rfl | exact absurd rfl h

theorem ParseString64_of_number {ret0 : Option ℚ} {k : UnitType} {str : CString} {q : ℚ}
    (h : sscanf_lf 20 str = ScanResult.number q) :
    ParseString64 ret0 k str
      = unitFactor64 k (dmul (round64 q) (round64 (scanScale str))) := by
  unfold ParseString64
  rw [h]

theorem round64_eq_some {x y : ℚ} (h : round64 x = some y) : y = round64Fin x := by
  unfold round64 at h
  split_ifs at h
  exact (Option.some.inj h).symm

theorem dmul_eq_some {a : Option ℚ} {c y : ℚ} (h : dmul a (some c) = some y) :
    ∃ x, a = some x ∧ y = round64Fin (x * c) := by
  cases a with
  | none => simp [dmul] at h
  | some x => exact ⟨x, rfl, round64_eq_some h⟩

/-! ## C10: the unit-specific factor of `ParseString` -/

/-- C10, as amended.  For every text in which `sscanf` reads a number, `ParseString` returns
the same value for every two kinds other than time-in-picoseconds, and with the
time-in-picoseconds kind it returns that value multiplied by 1e12 in binary64 arithmetic:
not a finite number when the product overflows, and otherwise the rounding of 1e12 times the
value, which differs from 1e12 times the value by at most `2^-53` of it plus `2^-1075`.  `ParseString(UNIT_PS, "2.5n")` is
2500.0. -/
theorem C10_unit_post_scale (ret0 : Option ℚ) (t : CString) (q : ℚ)
    (hq : sscanf_lf 20 t = ScanResult.number q) :
    (∀ k1 k2, k1 ≠ UNIT_PS → k2 ≠ UNIT_PS →
      ParseString64 ret0 k1 t = ParseString64 ret0 k2 t) ∧
    (∀ k, k ≠ UNIT_PS →
      ParseString64 ret0 k t = dmul (round64 q) (round64 (scanScale t))) ∧
    (∀ k, k ≠ UNIT_PS →
      ParseString64 ret0 UNIT_PS t = dmul (ParseString64 ret0 k t) (some 1e12)) ∧
    (∀ k x y, k ≠ UNIT_PS → ParseString64 ret0 k t = some x →
      ParseString64 ret0 UNIT_PS t = some y →
      y = round64Fin (1e12 * x) ∧ |y - 1e12 * x| ≤ |1e12 * x| / 2 ^ 53 + 1 / 2 ^ 1075) ∧
    ParseString64 ret0 UNIT_PS (cstr "2.5n") = some 2500.0 := by
  have hk : ∀ k, k ≠ UNIT_PS →
      ParseString64 ret0 k t = dmul (round64 q) (round64 (scanScale t)) := by
    intro k hk
    rw [ParseString64_of_number hq, unitFactor64_of_ne hk]
  have hps : ParseString64 ret0 UNIT_PS t
      = dmul (dmul (round64 q) (round64 (scanScale t))) (some 1e12) := by
    rw [ParseString64_of_number hq]
    rfl
  refine ⟨?_, hk, ?_, ?_, ?_⟩
  · intro k1 k2 h1 h2
    rw [hk k1 h1, hk k2 h2]
  · intro k h
    rw [hps, hk k h]
  · intro k x y h hx hy
    rw [hps, ← hk k h, hx] at hy
    obtain ⟨x', hx', hy'⟩ := dmul_eq_some hy
    rw [Option.some.injEq] at hx'
    subst hx'
    rw [mul_comm] at hy'
    rw [hy']
    exact ⟨rfl, round64Fin_near _⟩
  · have h : sscanf_lf 20 (cstr "2.5n") = ScanResult.number 2.5 := by decide!
    rw [ParseString64_of_number h]
    decide!

/-- C10 at the text `"2.5n"`, where `sscanf` reads 2.5: voltage gives the double nearest
2.5e-9 whatever `ret` held, and time-in-picoseconds gives 2500. -/
theorem C10_unit_post_scale_witness :
    sscanf_lf 20 (cstr "2.5n") = ScanResult.number 2.5 ∧
      ParseString64 (some 7) UNIT_VOLTS (cstr "2.5n")
        = ParseString64 (some 7) UNIT_HZ (cstr "2.5n") ∧
      ParseString64 (some 7) UNIT_PS (cstr "2.5n")
        = dmul (ParseString64 (some 7) UNIT_VOLTS (cstr "2.5n")) (some 1e12) ∧
      ParseString64 (some 7) UNIT_PS (cstr "2.5n") = some 2500.0 :=
  ⟨by decide!,
    (C10_unit_post_scale (some 7) (cstr "2.5n") 2.5 (by decide!)).1 UNIT_VOLTS UNIT_HZ
      (by decide) (by decide),
    (C10_unit_post_scale (some 7) (cstr "2.5n") 2.5 (by decide!)).2.2.1 UNIT_VOLTS (by decide),
    (C10_unit_post_scale (some 7) (cstr "2.5n") 2.5 (by decide!)).2.2.2.2⟩

/-- C10 as stated fails at the texts `"0.3"` and `"1e300"`, in both of which `sscanf` reads a
number.  For `"0.3"` the voltage kind returns the double nearest 0.3, which is
`5404319552844595 / 2^54`, and time-in-picoseconds returns 300000000000, which is not 1e12
times that value; for `"1e300"` the voltage kind returns a finite value and
time-in-picoseconds does not (the product overflows). -/
theorem C10_unit_post_scale_counterexample :
    sscanf_lf 20 (cstr "0.3") = ScanResult.number 0.3 ∧
    ParseString64 (some 0) UNIT_VOLTS (cstr "0.3") = some (5404319552844595 / 2 ^ 54) ∧
    ParseString64 (some 0) UNIT_PS (cstr "0.3") = some 300000000000 ∧
    (300000000000 : ℚ) ≠ 1e12 * (5404319552844595 / 2 ^ 54) ∧
    sscanf_lf 20 (cstr "1e300") = ScanResult.number (10 ^ 300) ∧
    ParseString64 (some 0) UNIT_VOLTS (cstr "1e300") = some (round64Fin (10 ^ 300)) ∧
    ParseString64 (some 0) UNIT_PS (cstr "1e300") = none :=
  ⟨by decide!, by decide!, by decide!, by norm_num, by decide!, by decide!, by decide!⟩

/-! ## Auxiliary facts: the round trip in binary64 -/

theorem round64Fin_abs_le (x : ℚ) : |round64Fin x| ≤ |x| + (|x| / 2 ^ 53 + 1 / 2 ^ 1075) := by
  have h := round64Fin_near x
  have e : round64Fin x = (round64Fin x - x) + x := by ring
  calc |round64Fin x| = |(round64Fin x - x) + x| := by rw [← e]
    _ ≤ |round64Fin x - x| + |x| := abs_add _ _
    _ ≤ |x| + (|x| / 2 ^ 53 + 1 / 2 ^ 1075) := by linarith

/-- A rounding error bound for a value known to be at most `B` in absolute value. -/
theorem round64Fin_err {x B : ℚ} (hx : |x| ≤ B) :
    |round64Fin x - x| ≤ B / 2 ^ 53 + 1 / 2 ^ 1075 := by
  have h := round64Fin_near x
  have : |x| / 2 ^ 53 ≤ B / 2 ^ 53 := div_le_div_of_nonneg_right hx (by positivity)
  linarith

theorem round64Fin_abs_le_of {x B : ℚ} (hx : |x| ≤ B) :
    |round64Fin x| ≤ B + (B / 2 ^ 53 + 1 / 2 ^ 1075) := by
  have h := round64Fin_abs_le x
  have : |x| / 2 ^ 53 ≤ B / 2 ^ 53 := div_le_div_of_nonneg_right hx (by positivity)
  linarith

theorem PrettyPrint64_eq_snprintf {k : UnitType} {v : ℚ} {s : Scaled}
    (hs : unitScale k v = some s) :
    PrettyPrint64 k v
      = snprintf 128 (formatText k v ⟨round64Fin s.value_rescaled, s.scale, s.unit⟩) := by
  unfold PrettyPrint64
  rw [hs]

theorem roundTrip64_core (ret0 : Option ℚ) {k : UnitType} {v : ℚ} {s : Scaled} {c : Nat}
    {t : CString} (hs : unitScale k v = some s) (h1 : k ≠ UNIT_LOG_BER)
    (h2 : k ≠ UNIT_SAMPLERATE) (h3 : k ≠ UNIT_SAMPLEDEPTH) (hv : |v| < (10 : ℚ) ^ 100)
    (hm : |s.value_rescaled| ≤ 1000)
    (htail : cstr " " ++ s.scale ++ s.unit = 32 :: c :: t) (hc : isNumeric c = false) :
    PrettyPrint64 k v = fmtFixed 3 (round64Fin s.value_rescaled) ++ 32 :: c :: t ∧
    ParseString64 ret0 k (PrettyPrint64 k v)
      = unitFactor64 k (dmul (round64 (fmtValue 3 (round64Fin s.value_rescaled)))
          (round64 (prefixScale c))) := by
  have hmag : |round64Fin s.value_rescaled| < (10 : ℚ) ^ 14 := by
    have := round64Fin_abs_le_of hm
    have e : (1000 : ℚ) + (1000 / 2 ^ 53 + 1 / 2 ^ 1075) < 10 ^ 14 := by norm_num
    linarith
  have hlen20 : (fmtFixed 3 (round64Fin s.value_rescaled)).length ≤ 20 :=
    le_trans (fmtFixed_length_le 3 hmag) (by norm_num)
  obtain ⟨_, hb, hu⟩ := unitScale_bounds (n := 100) (by norm_num) hs hv
  have htl : (32 :: c :: t).length ≤ 6 := by
    rw [← htail]
    simp only [List.length_append]
    have : (cstr " ").length = 1 := by decide
    omega
  have hp : PrettyPrint64 k v = fmtFixed 3 (round64Fin s.value_rescaled) ++ 32 :: c :: t := by
    rw [PrettyPrint64_eq_snprintf hs, formatText_three h1 h2 h3, List.append_assoc,
      List.append_assoc, ← List.append_assoc (cstr " "), htail]
    apply snprintf_of_length_le
    rw [List.length_append]
    omega
  refine ⟨hp, ?_⟩
  rw [hp]
  have hscan := sscanf_lf_fmtFixed 3 (by decide) (round64Fin s.value_rescaled) (32 :: c :: t)
    hlen20
    (by
      intro c' t' h
      rw [List.cons.injEq] at h
      rw [← h.1]
      exact ⟨by decide, by decide⟩)
  rw [ParseString64_of_number hscan, scanScale_fmtFixed 3 _ c t hc]

/-- The errors of the steps of a round trip add up: the magnitude `μ` is rounded to `m`,
displayed as `D`, read back as `d`, and multiplied by `s` instead of `mult`. -/
theorem roundTrip_chain (μ m D d s res mult e1 e2 e3 e4 : ℚ) (hmult : 0 < mult)
    (h1 : |m - μ| ≤ e1) (h2 : |D - m| ≤ 1 / 2000) (h3 : |d - D| ≤ e2)
    (h4 : |s - mult| ≤ e3 * mult) (h5 : |res - d * s| ≤ e4 * mult) (hd : |d| ≤ 1003) :
    |res - μ * mult| ≤ (1 / 2000 + e1 + e2 + 1003 * e3 + e4) * mult := by
  have e : res - μ * mult
      = (res - d * s) + d * (s - mult) + (d - D) * mult + (D - m) * mult + (m - μ) * mult := by
    ring
  have a1 : |d * (s - mult)| ≤ 1003 * (e3 * mult) := by
    rw [abs_mul]
    exact mul_le_mul hd h4 (abs_nonneg _) (by norm_num)
  have a2 : |(d - D) * mult| ≤ e2 * mult := by
    rw [abs_mul, abs_of_pos hmult]
    exact mul_le_mul_of_nonneg_right h3 (le_of_lt hmult)
  have a3 : |(D - m) * mult| ≤ 1 / 2000 * mult := by
    rw [abs_mul, abs_of_pos hmult]
    exact mul_le_mul_of_nonneg_right h2 (le_of_lt hmult)
  have a4 : |(m - μ) * mult| ≤ e1 * mult := by
    rw [abs_mul, abs_of_pos hmult]
    exact mul_le_mul_of_nonneg_right h1 (le_of_lt hmult)
  rw [e]
  calc |res - d * s + d * (s - mult) + (d - D) * mult + (D - m) * mult + (m - μ) * mult|
      ≤ |res - d * s + d * (s - mult) + (d - D) * mult + (D - m) * mult|
          + |(m - μ) * mult| := abs_add _ _
    _ ≤ |res - d * s + d * (s - mult) + (d - D) * mult| + |(D - m) * mult|
          + |(m - μ) * mult| := by linarith [abs_add (res - d * s + d * (s - mult) + (d - D) * mult) ((D - m) * mult)]
    _ ≤ |res - d * s + d * (s - mult)| + |(d - D) * mult| + |(D - m) * mult|
          + |(m - μ) * mult| := by linarith [abs_add (res - d * s + d * (s - mult)) ((d - D) * mult)]
    _ ≤ |res - d * s| + |d * (s - mult)| + |(d - D) * mult| + |(D - m) * mult|
          + |(m - μ) * mult| := by linarith [abs_add (res - d * s) (d * (s - mult))]
    _ ≤ (1 / 2000 + e1 + e2 + 1003 * e3 + e4) * mult := by linarith

/-- What is displayed for a magnitude of at most 1000 and read back as a binary64 number. -/
theorem displayed_read_back (μ : ℚ) (hμ : |μ| ≤ 1000) :
    |round64Fin μ - μ| ≤ 1000 / 2 ^ 53 + 1 / 2 ^ 1075 ∧
    |fmtValue 3 (round64Fin μ) - round64Fin μ| ≤ 1 / 2000 ∧
    round64 (fmtValue 3 (round64Fin μ)) = some (round64Fin (fmtValue 3 (round64Fin μ))) ∧
    |round64Fin (fmtValue 3 (round64Fin μ)) - fmtValue 3 (round64Fin μ)|
      ≤ 1002 / 2 ^ 53 + 1 / 2 ^ 1075 ∧
    |round64Fin (fmtValue 3 (round64Fin μ))| ≤ 1003 := by
  have h1 := round64Fin_err hμ
  have hm : |round64Fin μ| ≤ 1001 := by
    have := round64Fin_abs_le_of hμ
    have e : (1000 : ℚ) + (1000 / 2 ^ 53 + 1 / 2 ^ 1075) ≤ 1001 := by norm_num
    linarith
  have h2 : |fmtValue 3 (round64Fin μ) - round64Fin μ| ≤ 1 / 2000 := by
    have := fmtValue_near 3 (round64Fin μ)
    norm_num at this ⊢
    exact this
  have hD : |fmtValue 3 (round64Fin μ)| ≤ 1002 := by
    have e : fmtValue 3 (round64Fin μ)
        = (fmtValue 3 (round64Fin μ) - round64Fin μ) + round64Fin μ := by ring
    rw [e]
    have := abs_add (fmtValue 3 (round64Fin μ) - round64Fin μ) (round64Fin μ)
    have e2 : (1 : ℚ) / 2000 + 1001 ≤ 1002 := by norm_num
    linarith
  have h3 := round64_of_le (fmtValue 3 (round64Fin μ))
    (le_trans hD (by norm_num))
  have h4 := round64Fin_err hD
  have h5 : |round64Fin (fmtValue 3 (round64Fin μ))| ≤ 1003 := by
    have := round64Fin_abs_le_of hD
    have e : (1002 : ℚ) + (1002 / 2 ^ 53 + 1 / 2 ^ 1075) ≤ 1003 := by norm_num
    linarith
  exact ⟨h1, h2, h3, h4, h5⟩

/-- The round trip of a magnitude of at most 1000 through a prefix of multiplier `mult` that
binary64 holds as `s`, for a kind without post-scale. -/
theorem roundTrip64_error (μ mult s : ℚ) (hμ : |μ| ≤ 1000) (hlo : 1 / 1000 ≤ mult)
    (hhi : mult ≤ 10 ^ 9) (hs : round64 mult = some s) (hserr : |s - mult| ≤ mult / 2 ^ 53) :
    ∃ y, dmul (round64 (fmtValue 3 (round64Fin μ))) (round64 mult) = some y ∧
      |y - μ * mult| ≤ (0.0005 + 1e-12) * mult := by
  obtain ⟨h1, h2, h3, h4, h5⟩ := displayed_read_back μ hμ
  have hmult : 0 < mult := lt_of_lt_of_le (by norm_num) hlo
  set d := round64Fin (fmtValue 3 (round64Fin μ)) with hd
  have hsabs : |s| ≤ mult + mult / 2 ^ 53 := by
    have e : s = (s - mult) + mult := by ring
    rw [e]
    have := abs_add (s - mult) mult
    rw [abs_of_pos hmult] at this
    linarith
  have hprod : |d * s| ≤ 1004 * mult := by
    rw [abs_mul]
    have : |d| * |s| ≤ 1003 * (mult + mult / 2 ^ 53) :=
      mul_le_mul h5 hsabs (abs_nonneg _) (by norm_num)
    have e : (1003 : ℚ) * (mult + mult / 2 ^ 53) ≤ 1004 * mult := by
      have : mult / 2 ^ 53 ≤ mult / 1003 := by
        apply div_le_div_of_nonneg_left (le_of_lt hmult) (by norm_num) (by norm_num)
      have e2 : (1003 : ℚ) * (mult / 1003) = mult := by field_simp
      nlinarith
    linarith
  have hres := round64_of_le (d * s) (le_trans hprod (by
    have : (1004 : ℚ) * mult ≤ 1004 * 10 ^ 9 := by linarith
    exact le_trans this (by norm_num)))
  have herr := round64Fin_err hprod
  have h6 : |round64Fin (d * s) - d * s| ≤ (1004 / 2 ^ 53 + 1000 / 2 ^ 1075) * mult := by
    have : (1 : ℚ) / 2 ^ 1075 ≤ 1000 / 2 ^ 1075 * mult := by
      have e : (1000 : ℚ) / 2 ^ 1075 * mult = (1 / 2 ^ 1075) * (1000 * mult) := by ring
      rw [e]
      have h1000 : (1 : ℚ) ≤ 1000 * mult := by linarith
      have hpos : (0 : ℚ) ≤ 1 / 2 ^ 1075 := by positivity
      nlinarith
    have e2 : (1004 : ℚ) * mult / 2 ^ 53 = 1004 / 2 ^ 53 * mult := by ring
    rw [e2] at herr
    linarith
  have h4' : |s - mult| ≤ 1 / 2 ^ 53 * mult := by
    have e : (1 : ℚ) / 2 ^ 53 * mult = mult / 2 ^ 53 := by ring
    rw [e]
    exact hserr
  refine ⟨round64Fin (d * s), ?_, ?_⟩
  · rw [h3, hs]
    exact hres
  · have := roundTrip_chain μ (round64Fin μ) (fmtValue 3 (round64Fin μ)) d s
      (round64Fin (d * s)) mult _ _ _ _ hmult h1 h2 h4 h4' h6 h5
    refine le_trans this ?_
    apply mul_le_mul_of_nonneg_right _ (le_of_lt hmult)
    norm_num

/-- The round trip of a magnitude of at most 1000 through a prefix of scale `p0` that binary64
holds as `s`, for the time-in-picoseconds kind, whose post-scale is 1e12. -/
theorem roundTrip64_error_ps (μ p0 s : ℚ) (hμ : |μ| ≤ 1000) (hlo : 1 / 10 ^ 12 ≤ p0)
    (hhi : p0 ≤ 1) (hs : round64 p0 = some s) (hserr : |s - p0| ≤ p0 / 2 ^ 53) :
    ∃ y, dmul (dmul (round64 (fmtValue 3 (round64Fin μ))) (round64 p0)) (some 1e12) = some y ∧
      |y - μ * (p0 * 1e12)| ≤ (0.0005 + 1e-12) * (p0 * 1e12) := by
  obtain ⟨h1, h2, h3, h4, h5⟩ := displayed_read_back μ hμ
  have hp0 : 0 < p0 := lt_of_lt_of_le (by positivity) hlo
  have hmult : (0 : ℚ) < p0 * 1e12 := by positivity
  have hmult1 : (1 : ℚ) ≤ p0 * 1e12 := by
    have := mul_le_mul_of_nonneg_right hlo (by norm_num : (0 : ℚ) ≤ 1e12)
    norm_num at this ⊢
    linarith
  set d := round64Fin (fmtValue 3 (round64Fin μ)) with hd
  have hsabs : |s| ≤ p0 + p0 / 2 ^ 53 := by
    have e : s = (s - p0) + p0 := by ring
    rw [e]
    have := abs_add (s - p0) p0
    rw [abs_of_pos hp0] at this
    linarith
  have hprod : |d * s| ≤ 1004 * p0 := by
    rw [abs_mul]
    have : |d| * |s| ≤ 1003 * (p0 + p0 / 2 ^ 53) :=
      mul_le_mul h5 hsabs (abs_nonneg _) (by norm_num)
    have e : (1003 : ℚ) * (p0 + p0 / 2 ^ 53) ≤ 1004 * p0 := by
      have : p0 / 2 ^ 53 ≤ p0 / 1003 := by
        apply div_le_div_of_nonneg_left (le_of_lt hp0) (by norm_num) (by norm_num)
      have e2 : (1003 : ℚ) * (p0 / 1003) = p0 := by field_simp
      nlinarith
    linarith
  have hres1 := round64_of_le (d * s) (le_trans hprod (by
    have : (1004 : ℚ) * p0 ≤ 1004 * 1 := by linarith
    exact le_trans this (by norm_num)))
  have herr1 := round64Fin_err hprod
  set r1 := round64Fin (d * s) with hr1
  have hr1abs : |r1| ≤ 1005 * p0 := by
    have := round64Fin_abs_le_of hprod
    have e : (1004 : ℚ) * p0 + (1004 * p0 / 2 ^ 53 + 1 / 2 ^ 1075) ≤ 1005 * p0 := by
      have a : (1004 : ℚ) * p0 / 2 ^ 53 ≤ p0 / 2 := by
        have e3 : (1004 : ℚ) * p0 / 2 ^ 53 = p0 * (1004 / 2 ^ 53) := by ring
        rw [e3]
        have : (1004 : ℚ) / 2 ^ 53 ≤ 1 / 2 := by norm_num
        nlinarith
      have b : (1 : ℚ) / 2 ^ 1075 ≤ p0 / 2 := by
        have : (1 : ℚ) / 2 ^ 1075 ≤ 1 / 10 ^ 12 / 2 := by norm_num
        linarith
      linarith
    linarith
  have hprod2 : |r1 * 1e12| ≤ 1005 * (p0 * 1e12) := by
    rw [abs_mul, abs_of_pos (by norm_num : (0 : ℚ) < 1e12)]
    have := mul_le_mul_of_nonneg_right hr1abs (by norm_num : (0 : ℚ) ≤ 1e12)
    linarith
  have hres2 := round64_of_le (r1 * 1e12) (le_trans hprod2 (by
    have : (1005 : ℚ) * (p0 * 1e12) ≤ 1005 * (1 * 1e12) := by
      have := mul_le_mul_of_nonneg_right hhi (by norm_num : (0 : ℚ) ≤ 1e12)
      linarith
    exact le_trans this (by norm_num)))
  have herr2 := round64Fin_err hprod2
  -- the two products together
  have h6 : |round64Fin (r1 * 1e12) - d * (s * 1e12)|
      ≤ (2009 / 2 ^ 53 + (1e12 + 1) / 2 ^ 1075) * (p0 * 1e12) := by
    have e : round64Fin (r1 * 1e12) - d * (s * 1e12)
        = (round64Fin (r1 * 1e12) - r1 * 1e12) + (r1 - d * s) * 1e12 := by ring
    rw [e]
    have a1 := abs_add (round64Fin (r1 * 1e12) - r1 * 1e12) ((r1 - d * s) * 1e12)
    have a2 : |(r1 - d * s) * 1e12| ≤ (1004 * p0 / 2 ^ 53 + 1 / 2 ^ 1075) * 1e12 := by
      rw [abs_mul, abs_of_pos (by norm_num : (0 : ℚ) < 1e12)]
      exact mul_le_mul_of_nonneg_right herr1 (by norm_num)
    have a3 : (1 : ℚ) / 2 ^ 1075 + 1 / 2 ^ 1075 * 1e12
        ≤ (1e12 + 1) / 2 ^ 1075 * (p0 * 1e12) := by
      have e3 : (1 : ℚ) / 2 ^ 1075 + 1 / 2 ^ 1075 * 1e12 = (1e12 + 1) / 2 ^ 1075 * 1 := by ring
      rw [e3]
      exact mul_le_mul_of_nonneg_left hmult1 (by positivity)
    have e4 : (1005 : ℚ) * (p0 * 1e12) / 2 ^ 53 + (1004 * p0 / 2 ^ 53) * 1e12
        = 2009 / 2 ^ 53 * (p0 * 1e12) := by ring
    nlinarith
  have h4' : |s * 1e12 - p0 * 1e12| ≤ 1 / 2 ^ 53 * (p0 * 1e12) := by
    have e : s * 1e12 - p0 * 1e12 = (s - p0) * 1e12 := by ring
    rw [e, abs_mul, abs_of_pos (by norm_num : (0 : ℚ) < 1e12)]
    have := mul_le_mul_of_nonneg_right hserr (by norm_num : (0 : ℚ) ≤ 1e12)
    have e2 : p0 / 2 ^ 53 * 1e12 = 1 / 2 ^ 53 * (p0 * 1e12) := by ring
    linarith
  refine ⟨round64Fin (r1 * 1e12), ?_, ?_⟩
  · rw [h3, hs]
    show dmul (round64 (d * s)) (some 1e12) = _
    rw [hres1]
    exact hres2
  · have := roundTrip_chain μ (round64Fin μ) (fmtValue 3 (round64Fin μ)) d (s * 1e12)
      (round64Fin (r1 * 1e12)) (p0 * 1e12) _ _ _ _ hmult h1 h2 h4 h4' h6 h5
    refine le_trans this ?_
    apply mul_le_mul_of_nonneg_right _ (le_of_lt hmult)
    norm_num

/-- The scale factors of `prefixScale` and the post-scale as binary64 holds them. -/
theorem round64_scales :
    round64 1 = some 1 ∧ round64 1e6 = some 1e6 ∧ round64 1e9 = some 1e9 ∧
    round64 1e-3 = some (round64Fin 1e-3) ∧ |round64Fin 1e-3 - 1e-3| ≤ 1e-3 / 2 ^ 53 ∧
    round64 1e-9 = some (round64Fin 1e-9) ∧ |round64Fin 1e-9 - 1e-9| ≤ 1e-9 / 2 ^ 53 ∧
    round64 1e-12 = some (round64Fin 1e-12) ∧ |round64Fin 1e-12 - 1e-12| ≤ 1e-12 / 2 ^ 53 :=
  ⟨by decide!, by decide!, by decide!, by decide!, by decide!, by decide!, by decide!,
    by decide!, by decide!⟩

/-! ## C11: round trip for voltage, frequency and current -/

/-- C11, as amended.  In binary64 arithmetic, for voltage, frequency and current and every
value `v` with `|v| < 1e3` or `1e6 ≤ |v| < 1e12`, `PrettyPrint` displays a magnitude `m` with a
prefix among none, `"m"`, `"M"` and `"G"`, and `ParseString` of that string is the binary64
product of the displayed 3-decimal magnitude read as a binary64 number and the multiplier of the
displayed prefix (1, 1e-3, 1e6, 1e9) as binary64 holds it; the product is finite and differs
from `v` by at most `0.0005 + 1e-12` times that multiplier. -/
theorem C11_round_trip (k : UnitType) (hk : k ∈ roundTripKinds) (v : ℚ)
    (hv : |v| < 1e3 ∨ (1e6 ≤ |v| ∧ |v| < 1e12)) (ret0 : Option ℚ) :
    ∃ m p mult y, chosen64 k v = some (m, p) ∧
      ((p = cstr "" ∧ mult = 1) ∨ (p = cstr "m" ∧ mult = 1e-3) ∨ (p = cstr "M" ∧ mult = 1e6) ∨
        (p = cstr "G" ∧ mult = 1e9)) ∧
      ParseString64 ret0 k (PrettyPrint64 k v) = dmul (round64 (fmtValue 3 m)) (round64 mult) ∧
      ParseString64 ret0 k (PrettyPrint64 k v) = some y ∧
      |y - v| ≤ (0.0005 + 1e-12) * mult := by
  have hbig : |v| < (10 : ℚ) ^ 100 := by
    rcases hv with h | ⟨_, h⟩ <;> exact lt_trans h (by norm_num)
  obtain ⟨c0, t0, hsw, hc0, hp0, hps, hl1, hl2, hl3⟩ :=
    roundTripKinds_switch hk v (defaultScale v).1 (defaultScale v).2
  have hs : unitScale k v = some ⟨(defaultScale v).1, (defaultScale v).2, c0 :: t0⟩ := hsw
  have hch : chosen64 k v = some (round64Fin (defaultScale v).1, (defaultScale v).2) := by
    simp only [chosen64, hs, Option.map_some']
  obtain ⟨r1, r6, r9, rm, rme, -⟩ := round64_scales
  by_cases hA : |v| < 1
  · -- milli
    have hd := defaultScale_milli hA
    rw [hd] at hs hch
    have hm : |v * 1e3| ≤ 1000 := by
      rw [abs_mul]
      norm_num
      linarith
    obtain ⟨_, hparse⟩ := roundTrip64_core ret0 (c := 109) (t := c0 :: t0) hs hl1 hl2 hl3 hbig hm
      rfl (by decide)
    rw [unitFactor64_of_ne hps, prefixScale_m] at hparse
    obtain ⟨y, hy, hyerr⟩ := roundTrip64_error (v * 1e3) 1e-3 _ hm (by norm_num) (by norm_num)
      rm rme
    refine ⟨_, cstr "m", 1e-3, y, hch, Or.inr (Or.inl ⟨rfl, rfl⟩), hparse, hparse.trans hy, ?_⟩
    have e : v * 1e3 * 1e-3 = v := by
      norm_num
      rw [mul_assoc]
      norm_num
    rw [e] at hyerr
    exact hyerr
  · rw [not_lt] at hA
    rcases hv with hB | ⟨hB1, hB2⟩
    · -- no prefix
      have hd := defaultScale_unit hA hB
      rw [hd] at hs hch
      have hm : |v| ≤ 1000 := le_of_lt (lt_of_lt_of_le hB (by norm_num))
      obtain ⟨_, hparse⟩ := roundTrip64_core ret0 (c := c0) (t := t0) hs hl1 hl2 hl3 hbig hm
        rfl hc0
      rw [unitFactor64_of_ne hps, hp0] at hparse
      obtain ⟨y, hy, hyerr⟩ := roundTrip64_error v 1 1 hm (by norm_num) (by norm_num)
        r1 (by norm_num)
      refine ⟨_, cstr "", 1, y, hch, Or.inl ⟨rfl, rfl⟩, hparse, hparse.trans hy, ?_⟩
      rw [mul_one] at hyerr
      exact hyerr
    · by_cases hC : |v| < 1e9
      · -- mega
        have hd := defaultScale_mega hB1 hC
        rw [hd] at hs hch
        have hm : |v / 1e6| ≤ 1000 :=
          le_of_lt (abs_div_lt (by norm_num) (lt_of_lt_of_le hC (by norm_num)))
        obtain ⟨_, hparse⟩ := roundTrip64_core ret0 (c := 77) (t := c0 :: t0) hs hl1 hl2 hl3
          hbig hm rfl (by decide)
        rw [unitFactor64_of_ne hps, prefixScale_M] at hparse
        obtain ⟨y, hy, hyerr⟩ := roundTrip64_error (v / 1e6) 1e6 1e6 hm (by norm_num)
          (by norm_num) r6 (by norm_num)
        refine ⟨_, cstr "M", 1e6, y, hch, Or.inr (Or.inr (Or.inl ⟨rfl, rfl⟩)), hparse,
          hparse.trans hy, ?_⟩
        have e : v / 1e6 * 1e6 = v := by norm_num
        rw [e] at hyerr
        exact hyerr
      · -- giga
        rw [not_lt] at hC
        have hd := defaultScale_giga hC
        rw [hd] at hs hch
        have hm : |v / 1e9| ≤ 1000 :=
          le_of_lt (abs_div_lt (by norm_num) (lt_of_lt_of_le hB2 (by norm_num)))
        obtain ⟨_, hparse⟩ := roundTrip64_core ret0 (c := 71) (t := c0 :: t0) hs hl1 hl2 hl3
          hbig hm rfl (by decide)
        rw [unitFactor64_of_ne hps, prefixScale_G] at hparse
        obtain ⟨y, hy, hyerr⟩ := roundTrip64_error (v / 1e9) 1e9 1e9 hm (by norm_num)
          (by norm_num) r9 (by norm_num)
        refine ⟨_, cstr "G", 1e9, y, hch, Or.inr (Or.inr (Or.inr ⟨rfl, rfl⟩)), hparse,
          hparse.trans hy, ?_⟩
        have e : v / 1e9 * 1e9 = v := by norm_num
        rw [e] at hyerr
        exact hyerr

/-- C11 at voltage and `v = 2500000`: the range hypothesis holds, and the string `"2.500 MV"`
is read back as 2500000. -/
theorem C11_round_trip_witness :
    UNIT_VOLTS ∈ roundTripKinds ∧ (1e6 ≤ |(2500000 : ℚ)| ∧ |(2500000 : ℚ)| < 1e12) ∧
      (∃ m p mult y, chosen64 UNIT_VOLTS 2500000 = some (m, p) ∧
        ((p = cstr "" ∧ mult = 1) ∨ (p = cstr "m" ∧ mult = 1e-3) ∨
          (p = cstr "M" ∧ mult = 1e6) ∨ (p = cstr "G" ∧ mult = 1e9)) ∧
        ParseString64 (some 0) UNIT_VOLTS (PrettyPrint64 UNIT_VOLTS 2500000)
          = dmul (round64 (fmtValue 3 m)) (round64 mult) ∧
        ParseString64 (some 0) UNIT_VOLTS (PrettyPrint64 UNIT_VOLTS 2500000) = some y ∧
        |y - 2500000| ≤ (0.0005 + 1e-12) * mult) ∧
      PrettyPrint64 UNIT_VOLTS 2500000 = cstr "2.500 MV" ∧
      ParseString64 (some 0) UNIT_VOLTS (PrettyPrint64 UNIT_VOLTS 2500000) = some 2500000 :=
  ⟨by decide, by norm_num,
    C11_round_trip UNIT_VOLTS (by decide) 2500000 (Or.inr (by norm_num)) (some 0),
    by decide!, by decide!⟩

/-- C11 as stated fails in binary64 arithmetic.  The voltage 2.0625 is a binary64 value in the
stated range; it is displayed as `"2.062 V"`, which is read back as the binary64 number nearest
to 2.062, and that number differs from 2.0625 by more than 0.0005 times the multiplier 1.  The
voltage 4.1e9 is displayed as `"4.100 GV"` and read back as 4099999999.9999995, which is not the
displayed magnitude 4.100 times the multiplier 1e9. -/
theorem C11_round_trip_counterexample :
    UNIT_VOLTS ∈ roundTripKinds ∧
    round64 2.0625 = some 2.0625 ∧ |(2.0625 : ℚ)| < 1e3 ∧
    chosen64 UNIT_VOLTS 2.0625 = some (2.0625, cstr "") ∧
    PrettyPrint64 UNIT_VOLTS 2.0625 = cstr "2.062 V" ∧
    ParseString64 (some 0) UNIT_VOLTS (cstr "2.062 V") = some (4643211215818981 / 2 ^ 51) ∧
    ¬ (|(4643211215818981 / 2 ^ 51 : ℚ) - 2.0625| ≤ 0.0005 * 1) ∧
    round64 4.1e9 = some 4.1e9 ∧ (1e6 ≤ |(4.1e9 : ℚ)| ∧ |(4.1e9 : ℚ)| < 1e12) ∧
    chosen64 UNIT_VOLTS 4.1e9 = some (round64Fin 4.1, cstr "G") ∧
    PrettyPrint64 UNIT_VOLTS 4.1e9 = cstr "4.100 GV" ∧
    fmtValue 3 (round64Fin 4.1) = 4.1 ∧
    ParseString64 (some 0) UNIT_VOLTS (cstr "4.100 GV") = some (8598323199999999 / 2 ^ 21) ∧
    (8598323199999999 / 2 ^ 21 : ℚ) ≠ 4.1 * 1e9 :=
  ⟨by decide, by decide!, by rw [abs_lt]; norm_num, by decide!, by decide!, by decide!,
    by decide!, by decide!, by norm_num, by decide!, by decide!, by decide!, by decide!,
    by norm_num⟩

/-! ## C12: text without a number -/

/-- C12, the code at the failing inputs.  For the texts `""` and `"abc"` the conversion of
`sscanf` fails, nothing is stored in the uninitialised local `ret`, and `ParseString` returns
whatever that local held (`ret0`), times the scale factor: with `ret0 = 1` the result is 1,
not 0.0, so the result is not determined by the text and the kind. -/
theorem C12_malformed_text :
    sscanf_lf 20 (cstr "") = ScanResult.failure ∧
    sscanf_lf 20 (cstr "abc") = ScanResult.failure ∧
    (∀ ret0 k str, sscanf_lf 20 str = ScanResult.failure →
      ParseString ret0 k str = some (unitFactor k (ret0 * scanScale str))) ∧
    (∀ ret0, ParseString ret0 UNIT_VOLTS (cstr "abc") = some ret0) ∧
    (∀ ret0, ParseString ret0 UNIT_VOLTS (cstr "") = some ret0) ∧
    ParseString 1 UNIT_VOLTS (cstr "abc") = some 1 ∧
    ParseString 1 UNIT_VOLTS (cstr "abc") ≠ some 0 ∧
    ParseString 0 UNIT_VOLTS (cstr "abc") ≠ ParseString 1 UNIT_VOLTS (cstr "abc") := by
  have h1 : sscanf_lf 20 (cstr "") = ScanResult.failure := by decide!
  have h2 : sscanf_lf 20 (cstr "abc") = ScanResult.failure := by decide!
  have hgen : ∀ ret0 k str, sscanf_lf 20 str = ScanResult.failure →
      ParseString ret0 k str = some (unitFactor k (ret0 * scanScale str)) := by
    intro ret0 k str h
    unfold ParseString
    rw [h]
  have s1 : scanScale (cstr "") = 1 := by decide!
  have s2 : scanScale (cstr "abc") = 1 := by decide!
  refine ⟨h1, h2, hgen, ?_, ?_, by decide!, by decide!, by decide!⟩
  · intro ret0
    rw [hgen ret0 UNIT_VOLTS _ h2, s2, mul_one]
    rfl
  · intro ret0
    rw [hgen ret0 UNIT_VOLTS _ h1, s1, mul_one]
    rfl

/-- C12 at the text `"p"`: the conversion fails and the result is `ret0 * 1e-12`. -/
theorem C12_malformed_text_witness :
    sscanf_lf 20 (cstr "p") = ScanResult.failure ∧
      ParseString 3 UNIT_VOLTS (cstr "p") = some (unitFactor UNIT_VOLTS (3 * scanScale (cstr "p"))) :=
  ⟨by decide!, C12_malformed_text.2.2.1 3 UNIT_VOLTS (cstr "p") (by decide!)⟩

/-! ## C13: the numeric literal -/

theorem defaultScale_prefix (v : ℚ) :
    (defaultScale v).2 = cstr "G" ∨ (defaultScale v).2 = cstr "M" ∨
      (defaultScale v).2 = cstr "k" ∨ (defaultScale v).2 = cstr "m" ∨
      (defaultScale v).2 = cstr "" := by
  rw [defaultScale_eq]
  split_ifs <;> simp

/-- C14.  The branches of the default ladder guarded by `|v| < 1e-6` and `|v| < 1e-9` are
unreachable: where they are tested `|v| < 1` has failed, so neither guard can hold.  The ladder
as written therefore equals, for every value, the ladder with the two branches removed (`G`,
`M`, `k`, `m`, none); and for every kind other than time-in-picoseconds and every value, the
prefix `PrettyPrint` chooses is neither the micro sign nor `"p"`. -/
theorem C14_dead_branches (v : ℚ) :
    (¬ fabs v < 1 → ¬ fabs v < 1e-6) ∧
    (¬ fabs v < 1 → ¬ fabs v < 1e-9) ∧
    defaultScale v = defaultScaleCollapsed v ∧
    (∀ k, k ≠ UNIT_PS → ∀ m p, chosen k v = some (m, p) → p ≠ cstr "μ" ∧ p ≠ cstr "p") := by
  refine ⟨?_, ?_, ?_, ?_⟩
  · intro h1 h2
    exact h1 (lt_trans h2 (by norm_num))
  · intro h1 h2
    exact h1 (lt_trans h2 (by norm_num))
  · unfold defaultScale defaultScaleCollapsed
    by_cases h1 : fabs v < 1
    · simp only [h1, if_true]
    · have h2 : ¬ fabs v < 1e-6 := fun h => h1 (lt_trans h (by norm_num))
      have h3 : ¬ fabs v < 1e-9 := fun h => h1 (lt_trans h (by norm_num))
      simp only [h1, h2, h3, if_false]
  · intro k hk m p hch
    have hd := defaultScale_prefix v
    have hne : ∀ q : CString, (q = cstr "G" ∨ q = cstr "M" ∨ q = cstr "k" ∨ q = cstr "m" ∨
        q = cstr "") → q ≠ cstr "μ" ∧ q ≠ cstr "p" := by
      intro q hq
      rcases hq with rfl | rfl | rfl | rfl | rfl <;> exact ⟨by decide, by decide⟩
    cases k <;> simp only [chosen, unitScale, unitSwitch, Option.map_some', Option.map_none',
      Option.some.injEq, Prod.mk.injEq, reduceCtorEq] at hch <;>
      first
      | exact absurd rfl hk
      | (obtain ⟨_, rfl⟩ := hch; exact hne _ hd)
      | (obtain ⟨_, rfl⟩ := hch; exact hne _ (Or.inr (Or.inr (Or.inr (Or.inr rfl)))))

/-- C14 at `v = 1e-7` and the voltage kind: the guard `|v| < 1` holds, so the micro branch is
not reached; both ladders give `(1e-7 * 1e3, "m")`, and the prefix chosen is `"m"`. -/
theorem C14_dead_branches_witness :
    UNIT_VOLTS ≠ UNIT_PS ∧ chosen UNIT_VOLTS 1e-7 = some (1e-7 * 1e3, cstr "m") ∧
      defaultScale 1e-7 = defaultScaleCollapsed 1e-7 ∧
      (cstr "m" ≠ cstr "μ" ∧ cstr "m" ≠ cstr "p") :=
  ⟨by decide, by decide!, (C14_dead_branches 1e-7).2.2.1,
    (C14_dead_branches 1e-7).2.2.2 UNIT_VOLTS (by decide) (1e-7 * 1e3) (cstr "m") (by decide!)⟩

/-! ## C15: the range of the rescaled magnitude -/

theorem abs_div_bounds {v c : ℚ} (hc : 0 < c) (h1 : c ≤ |v|) (h2 : |v| < 1000 * c) :
    1 ≤ |v / c| ∧ |v / c| < 1000 := by
  rw [abs_div, abs_of_pos hc]
  exact ⟨(one_le_div hc).mpr h1, (div_lt_iff₀ hc).mpr h2⟩

/-- C15.  For every kind that keeps the default SI scaling and every value `v` with
`1e-3 ≤ |v| < 1e12`, the rescaled magnitude `m` that `PrettyPrint` chooses satisfies
`1 ≤ |m| < 1000`; for the time-in-picoseconds kind the same holds for every `v` with
`1 ≤ |v| < 1e15`. -/
theorem C15_convenient_range (v : ℚ) :
    (∀ k ∈ siKinds, 1e-3 ≤ |v| → |v| < 1e12 →
      ∃ m p, chosen k v = some (m, p) ∧ 1 ≤ |m| ∧ |m| < 1000) ∧
    (1 ≤ |v| → |v| < 1e15 →
      ∃ m p, chosen UNIT_PS v = some (m, p) ∧ 1 ≤ |m| ∧ |m| < 1000) := by
  constructor
  · intro k hk h1 h2
    refine ⟨(defaultScale v).1, (defaultScale v).2, chosen_of_mem_siKinds hk v, ?_⟩
    by_cases hA : |v| < 1
    · rw [defaultScale_milli hA]
      dsimp only
      rw [abs_mul]
      norm_num at h1 ⊢
      constructor <;> linarith
    · rw [not_lt] at hA
      by_cases hB : |v| < 1e3
      · rw [defaultScale_unit hA hB]
        exact ⟨hA, by norm_num at hB ⊢; exact hB⟩
      · rw [not_lt] at hB
        by_cases hC : |v| < 1e6
        · rw [defaultScale_kilo hB hC]
          exact abs_div_bounds (by norm_num) hB (by norm_num at hC ⊢; exact hC)
        · rw [not_lt] at hC
          by_cases hD : |v| < 1e9
          · rw [defaultScale_mega hC hD]
            exact abs_div_bounds (by norm_num) hC (by norm_num at hD ⊢; exact hD)
          · rw [not_lt] at hD
            rw [defaultScale_giga hD]
            exact abs_div_bounds (by norm_num) hD (by norm_num at h2 ⊢; exact h2)
  · intro h1 h2
    have hch : chosen UNIT_PS v = some ((psScale v).1, (psScale v).2) := by
      simp only [chosen, unitScale, unitSwitch, Option.map_some']
    refine ⟨(psScale v).1, (psScale v).2, hch, ?_⟩
    by_cases hB : |v| < 1e3
    · rw [psScale_pico hB]
      exact ⟨h1, by norm_num at hB ⊢; exact hB⟩
    · rw [not_lt] at hB
      by_cases hC : |v| < 1e6
      · rw [psScale_nano hB hC]
        exact abs_div_bounds (by norm_num) hB (by norm_num at hC ⊢; exact hC)
      · rw [not_lt] at hC
        by_cases hD : |v| < 1e9
        · rw [psScale_micro hC hD]
          exact abs_div_bounds (by norm_num) hC (by norm_num at hD ⊢; exact hD)
        · rw [not_lt] at hD
          by_cases hE : |v| < 1e12
          · rw [psScale_milli hD hE]
            exact abs_div_bounds (by norm_num) hD (by norm_num at hE ⊢; exact hE)
          · rw [not_lt] at hE
            rw [psScale_none hE]
            exact abs_div_bounds (by norm_num) hE (by norm_num at h2 ⊢; exact h2)

/-- C15 at the current kind and `v = 0.02`, and at time-in-picoseconds and `v = 2.5e13`: the
hypotheses hold in both cases. -/
theorem C15_convenient_range_witness :
    UNIT_AMPS ∈ siKinds ∧ (1e-3 : ℚ) ≤ |0.02| ∧ |(0.02 : ℚ)| < 1e12 ∧
      (∃ m p, chosen UNIT_AMPS 0.02 = some (m, p) ∧ 1 ≤ |m| ∧ |m| < 1000) ∧
      (1 : ℚ) ≤ |2.5e13| ∧ |(2.5e13 : ℚ)| < 1e15 ∧
      (∃ m p, chosen UNIT_PS 2.5e13 = some (m, p) ∧ 1 ≤ |m| ∧ |m| < 1000) :=
  ⟨by decide, by rw [le_abs]; norm_num, by rw [abs_lt]; norm_num,
    (C15_convenient_range 0.02).1 UNIT_AMPS (by decide) (by rw [le_abs]; norm_num)
      (by rw [abs_lt]; norm_num),
    by rw [le_abs]; norm_num, by rw [abs_lt]; norm_num,
    (C15_convenient_range 2.5e13).2 (by rw [le_abs]; norm_num) (by rw [abs_lt]; norm_num)⟩

/-! ## C16: sign symmetry -/

theorem fabs_neg (v : ℚ) : fabs (-v) = fabs v := by
  rw [fabs_eq_abs, fabs_eq_abs, abs_neg]

theorem defaultScale_neg (v : ℚ) :
    defaultScale (-v) = (-(defaultScale v).1, (defaultScale v).2) := by
  unfold defaultScale
  rw [fabs_neg]
  split_ifs <;> simp only [Prod.mk.injEq, and_true] <;> ring

theorem psScale_neg (v : ℚ) : psScale (-v) = (-(psScale v).1, (psScale v).2) := by
  unfold psScale
  rw [fabs_neg]
  split_ifs <;> simp only [Prod.mk.injEq, and_true] <;> ring

/-- C16.  For every catalogued kind and every value `v`, the prefix and the suffix
`PrettyPrint` chooses for `-v` are those it chooses for `v`, and the rescaled magnitude chosen
for `-v` is the negation of the one chosen for `v`. -/
theorem C16_sign_symmetry (k : UnitType) (hk : k ∈ catalogue) (v : ℚ) :
    ∃ s, unitScale k v = some s ∧
      unitScale k (-v) = some ⟨-s.value_rescaled, s.scale, s.unit⟩ := by
  cases k <;>
    first
    | exact ⟨_, rfl, by simp only [unitScale, unitSwitch, defaultScale_neg, psScale_neg]⟩
    | (simp [catalogue] at hk)

/-- C16 at resistance and `v = 4700`: `(4.7, "k", "Ω")` for `v` and `(-4.7, "k", "Ω")` for
`-v`. -/
theorem C16_sign_symmetry_witness :
    UNIT_OHMS ∈ catalogue ∧
      (∃ s, unitScale UNIT_OHMS 4700 = some s ∧
        unitScale UNIT_OHMS (-4700) = some ⟨-s.value_rescaled, s.scale, s.unit⟩) ∧
      unitScale UNIT_OHMS (-4700) = some ⟨-4.7, cstr "k", cstr "Ω"⟩ :=
  ⟨by decide, C16_sign_symmetry UNIT_OHMS (by decide) 4700, by decide!⟩

/-! ## C17: millivolts does not round-trip -/

/-- C19, as amended.  In binary64 arithmetic, for the time-in-picoseconds kind and every value
`v` with `|v| < 1e6` or `1e9 ≤ |v| < 1e15`, `PrettyPrint` displays a magnitude `m` with a prefix
among `"p"`, `"n"`, `"m"` and none, and `ParseString` of that string is the displayed 3-decimal
magnitude read as a binary64 number, multiplied in binary64 by the scale of the displayed prefix
(1e-12, 1e-9, 1e-3, 1) as binary64 holds it and then by 1e12; the result is finite and differs
from `v` by at most `0.0005 + 1e-12` times the picosecond multiplier of the prefix (1, 1e3, 1e9,
1e12). -/
theorem C19_ps_round_trip (v : ℚ) (hv : |v| < 1e6 ∨ (1e9 ≤ |v| ∧ |v| < 1e15))
    (ret0 : Option ℚ) :
    ∃ m p sc mult y, chosen64 UNIT_PS v = some (m, p) ∧
      ((p = cstr "p" ∧ sc = 1e-12 ∧ mult = 1) ∨ (p = cstr "n" ∧ sc = 1e-9 ∧ mult = 1e3) ∨
        (p = cstr "m" ∧ sc = 1e-3 ∧ mult = 1e9) ∨ (p = cstr "" ∧ sc = 1 ∧ mult = 1e12)) ∧
      ParseString64 ret0 UNIT_PS (PrettyPrint64 UNIT_PS v)
        = dmul (dmul (round64 (fmtValue 3 m)) (round64 sc)) (some 1e12) ∧
      ParseString64 ret0 UNIT_PS (PrettyPrint64 UNIT_PS v) = some y ∧
      |y - v| ≤ (0.0005 + 1e-12) * mult := by
  have hbig : |v| < (10 : ℚ) ^ 100 := by
    rcases hv with h | ⟨_, h⟩ <;> exact lt_trans h (by norm_num)
  have hs : unitScale UNIT_PS v = some ⟨(psScale v).1, (psScale v).2, cstr "s"⟩ := by
    simp only [unitScale, unitSwitch]
  have hch : chosen64 UNIT_PS v = some (round64Fin (psScale v).1, (psScale v).2) := by
    simp only [chosen64, hs, Option.map_some']
  have hfac : ∀ x : Option ℚ, unitFactor64 UNIT_PS x = dmul x (some 1e12) := fun _ => rfl
  obtain ⟨r1, -, -, rm, rme, rn, rne, rp, rpe⟩ := round64_scales
  by_cases hA : |v| < 1e3
  · -- pico
    have hd := psScale_pico hA
    rw [hd] at hs hch
    have hm : |v| ≤ 1000 := le_of_lt (lt_of_lt_of_le hA (by norm_num))
    obtain ⟨_, hparse⟩ := roundTrip64_core ret0 (c := 112) (t := [115]) hs (by decide)
      (by decide) (by decide) hbig hm rfl (by decide)
    rw [hfac, prefixScale_p] at hparse
    obtain ⟨y, hy, hyerr⟩ := roundTrip64_error_ps v 1e-12 _ hm (by norm_num) (by norm_num)
      rp rpe
    refine ⟨_, cstr "p", 1e-12, 1, y, hch, Or.inl ⟨rfl, rfl, rfl⟩, hparse, hparse.trans hy, ?_⟩
    have e : (1e-12 : ℚ) * 1e12 = 1 := by norm_num
    rw [e, mul_one] at hyerr
    exact hyerr
  · rw [not_lt] at hA
    rcases hv with hB | ⟨hB1, hB2⟩
    · -- nano
      have hd := psScale_nano hA hB
      rw [hd] at hs hch
      have hm : |v / 1e3| ≤ 1000 :=
        le_of_lt (abs_div_lt (by norm_num) (lt_of_lt_of_le hB (by norm_num)))
      obtain ⟨_, hparse⟩ := roundTrip64_core ret0 (c := 110) (t := [115]) hs (by decide)
        (by decide) (by decide) hbig hm rfl (by decide)
      rw [hfac, prefixScale_n] at hparse
      obtain ⟨y, hy, hyerr⟩ := roundTrip64_error_ps (v / 1e3) 1e-9 _ hm (by norm_num)
        (by norm_num) rn rne
      refine ⟨_, cstr "n", 1e-9, 1e3, y, hch, Or.inr (Or.inl ⟨rfl, rfl, rfl⟩), hparse,
        hparse.trans hy, ?_⟩
      have e : (1e-9 : ℚ) * 1e12 = 1e3 := by norm_num
      have e2 : v / 1e3 * 1e3 = v := by norm_num
      rw [e, e2] at hyerr
      exact hyerr
    · by_cases hC : |v| < 1e12
      · -- milli
        have hd := psScale_milli hB1 hC
        rw [hd] at hs hch
        have hm : |v / 1e9| ≤ 1000 :=
          le_of_lt (abs_div_lt (by norm_num) (lt_of_lt_of_le hC (by norm_num)))
        obtain ⟨_, hparse⟩ := roundTrip64_core ret0 (c := 109) (t := [115]) hs (by decide)
          (by decide) (by decide) hbig hm rfl (by decide)
        rw [hfac, prefixScale_m] at hparse
        obtain ⟨y, hy, hyerr⟩ := roundTrip64_error_ps (v / 1e9) 1e-3 _ hm (by norm_num)
          (by norm_num) rm rme
        refine ⟨_, cstr "m", 1e-3, 1e9, y, hch, Or.inr (Or.inr (Or.inl ⟨rfl, rfl, rfl⟩)),
          hparse, hparse.trans hy, ?_⟩
        have e : (1e-3 : ℚ) * 1e12 = 1e9 := by norm_num
        have e2 : v / 1e9 * 1e9 = v := by norm_num
        rw [e, e2] at hyerr
        exact hyerr
      · -- seconds
        rw [not_lt] at hC
        have hd := psScale_none hC
        rw [hd] at hs hch
        have hm : |v / 1e12| ≤ 1000 :=
          le_of_lt (abs_div_lt (by norm_num) (lt_of_lt_of_le hB2 (by norm_num)))
        obtain ⟨_, hparse⟩ := roundTrip64_core ret0 (c := 115) (t := []) hs (by decide)
          (by decide) (by decide) hbig hm rfl (by decide)
        rw [hfac, prefixScale_s] at hparse
        obtain ⟨y, hy, hyerr⟩ := roundTrip64_error_ps (v / 1e12) 1 1 hm (by norm_num)
          (by norm_num) r1 (by norm_num)
        refine ⟨_, cstr "", 1, 1e12, y, hch, Or.inr (Or.inr (Or.inr ⟨rfl, rfl, rfl⟩)),
          hparse, hparse.trans hy, ?_⟩
        have e : (1 : ℚ) * 1e12 = 1e12 := by norm_num
        have e2 : v / 1e12 * 1e12 = v := by norm_num
        rw [e, e2] at hyerr
        exact hyerr

/-- C19 at `v = 5000`: the range hypothesis holds, and the string `"5.000 ns"` is read back as
5000. -/
theorem C19_ps_round_trip_witness :
    |(5000 : ℚ)| < 1e6 ∧
      (∃ m p sc mult y, chosen64 UNIT_PS 5000 = some (m, p) ∧
        ((p = cstr "p" ∧ sc = 1e-12 ∧ mult = 1) ∨ (p = cstr "n" ∧ sc = 1e-9 ∧ mult = 1e3) ∨
          (p = cstr "m" ∧ sc = 1e-3 ∧ mult = 1e9) ∨ (p = cstr "" ∧ sc = 1 ∧ mult = 1e12)) ∧
        ParseString64 (some 0) UNIT_PS (PrettyPrint64 UNIT_PS 5000)
          = dmul (dmul (round64 (fmtValue 3 m)) (round64 sc)) (some 1e12) ∧
        ParseString64 (some 0) UNIT_PS (PrettyPrint64 UNIT_PS 5000) = some y ∧
        |y - 5000| ≤ (0.0005 + 1e-12) * mult) ∧
      PrettyPrint64 UNIT_PS 5000 = cstr "5.000 ns" ∧
      ParseString64 (some 0) UNIT_PS (PrettyPrint64 UNIT_PS 5000) = some 5000 :=
  ⟨by norm_num, C19_ps_round_trip 5000 (Or.inl (by norm_num)) (some 0), by decide!, by decide!⟩

/-- C19 as stated fails in binary64 arithmetic.  The time 4100 ps is a binary64 value in the
stated range; it is displayed as `"4.100 ns"`, which is read back as 4099.999999999999, not as
the displayed magnitude 4.100 times the multiplier 1e3.  The time 2.0625 ps is displayed as
`"2.062 ps"`, which is read back as a number that differs from 2.0625 by more than 0.0005 times
the multiplier 1. -/
theorem C19_ps_round_trip_counterexample :
    round64 4100 = some 4100 ∧ |(4100 : ℚ)| < 1e6 ∧
    chosen64 UNIT_PS 4100 = some (round64Fin 4.1, cstr "n") ∧
    PrettyPrint64 UNIT_PS 4100 = cstr "4.100 ns" ∧
    fmtValue 3 (round64Fin 4.1) = 4.1 ∧
    ParseString64 (some 0) UNIT_PS (cstr "4.100 ns") = some (4507997673881599 / 2 ^ 40) ∧
    (4507997673881599 / 2 ^ 40 : ℚ) ≠ 4.1 * 1e3 ∧
    round64 2.0625 = some 2.0625 ∧ |(2.0625 : ℚ)| < 1e6 ∧
    chosen64 UNIT_PS 2.0625 = some (2.0625, cstr "p") ∧
    PrettyPrint64 UNIT_PS 2.0625 = cstr "2.062 ps" ∧
    ParseString64 (some 0) UNIT_PS (cstr "2.062 ps") = some (4643211215818981 / 2 ^ 51) ∧
    ¬ (|(4643211215818981 / 2 ^ 51 : ℚ) - 2.0625| ≤ 0.0005 * 1) :=
  ⟨by decide!, by norm_num, by decide!, by decide!, by decide!, by decide!, by norm_num,
    by decide!, by rw [abs_lt]; norm_num, by decide!, by decide!, by decide!, by decide!⟩

end ScopeHal
